import Mathlib

/-!
A shallow embedding of the Boole elective-equation engine
(expressions, parser, normalizer, conjunction, elimination, rendering),
together with theorems checking the specification's claims against it.

Python data is modelled as follows: Python `str` is `String` (or `List Char`
inside the parser, which indexes and slices character-wise); Python `int` is
`Int`; Python `dict` is an association list kept in insertion order, looked up
by first match (Python dicts have unique keys, so first match agrees with the
dict lookup); Python exceptions are the explicit error type `PyError`, and a
function that can raise returns `Except PyError _`.
-/

-- Structural decidable equality for `Except` results, used to state concrete
-- outcomes of fallible operations.
deriving instance DecidableEq for Except

namespace Booles

/-- An elective symbol is just a name (`Symbol = str` in the source). -/
abbrev Symbol := String

/-- `SymbolValues`: a mapping like `{"x": 0, "y": 1}` assigning the elective
symbols' values, modelled as an association list. -/
abbrev SymbolValues := List (Symbol × Int)

/-- The Python exceptions the engine can raise.  `valueError` carries the
message text (the `repr`-quoting of CPython's "x is not in list" message is
dropped).  `recursionError` models CPython's recursion limit: the embedded
parser is given fuel, and `parseFuel_congr` below shows the limit is never hit
when the fuel exceeds the input length. -/
inductive PyError where
  | valueError (msg : String)
  | keyError (key : String)
  | keyErrorTuple (key : List Int)
  | assertionError
  | indexError
  | typeError
  | recursionError
deriving DecidableEq

/-- The elective-function AST.  The source uses one subclass of `Function` per
node kind; here each subclass is a constructor. -/
inductive Function where
  | SymbolFunction (symbol : Symbol)
  | ConstantFunction (value : Int)
  | NegationFunction (body : Function)
  | MultiplicationFunction (left right : Function)
deriving DecidableEq

/-- First-match association-list lookup: the semantics of `d[k]` for a Python
dict `d` built by insertion (keys are unique, so first match is the match). -/
def dictGet {α β : Type} [DecidableEq α] : List (α × β) → α → Option β
  | [], _ => none
  | p :: ps, k => if p.1 = k then some p.2 else dictGet ps k

/-- `Function.__call__`: evaluate under a symbol assignment.  A `SymbolRef`
whose symbol is absent raises `KeyError`; negation is `1 - v` and product is
ordinary integer multiplication, mirroring the source exactly. -/
def call : Function → SymbolValues → Except PyError Int
  | .SymbolFunction s, values =>
    match dictGet values s with
    | some v => .ok v
    | none => .error (.keyError s)
  | .ConstantFunction v, _ => .ok v
  | .NegationFunction b, values =>
    match call b values with
    | .ok x => .ok (1 - x)
    | .error e => .error e
  | .MultiplicationFunction l r, values =>
    match call l values with
    | .ok a =>
      match call r values with
      | .ok b => .ok (a * b)
      | .error e => .error e
    | .error e => .error e

/-- `Function.__repr__` as a character list: a symbol prints as its letter, a
constant as its decimal text, negation as `(1-body)`, product as bare
juxtaposition. -/
def reprL : Function → List Char
  | .SymbolFunction s => s.data
  | .ConstantFunction v => (toString v).data
  | .NegationFunction b => '(' :: '1' :: '-' :: (reprL b ++ [')'])
  | .MultiplicationFunction l r => reprL l ++ reprL r

/-- `Function.__repr__` as a `String` (the spec's `toText`). -/
def reprFunction (e : Function) : String := String.mk (reprL e)

/-- The single-character branch of `parse`: `[a-z]` gives a `SymbolFunction`,
`[01]` a `ConstantFunction`, anything else `ValueError(f"Cannot parse {s}")`.
`s` is the string being parsed, used in the error message. -/
def parseChar (c : Char) (s : List Char) : Except PyError Function :=
  if 'a' ≤ c ∧ c ≤ 'z' then .ok (.SymbolFunction (String.mk [c]))
  else if c = '0' then .ok (.ConstantFunction 0)
  else if c = '1' then .ok (.ConstantFunction 1)
  else .error (.valueError ("Cannot parse " ++ String.mk s))

/-- Loop of `matching_parenthesis`: `count` is incremented at `(` and
decremented at `)`; the index is returned the moment the count comes back to
zero after a decrement.  Falling off the end returns `none` (Python's implicit
`return None`). -/
def mpGo : List Char → Int → Nat → Option Nat
  | [], _, _ => none
  | c :: rest, count, i =>
    if c = '(' then mpGo rest (count + 1) (i + 1)
    else if c = ')' then
      if count - 1 = 0 then some i else mpGo rest (count - 1) (i + 1)
    else mpGo rest count (i + 1)

/-- `matching_parenthesis(s)`. -/
def matching_parenthesis (s : List Char) : Option Nat := mpGo s 0 0

/-- Python slice `s[a:b]` (for nonnegative bounds). -/
def pySlice (s : List Char) (a b : Nat) : List Char := (s.take b).drop a

/-- Elementwise traversal of a list under `Except`, stopping at the first
error: the semantics of a Python `for` loop that builds a result list and can
raise. -/
def mapE {α β : Type} (f : α → Except PyError β) : List α → Except PyError (List β)
  | [] => .ok []
  | x :: xs =>
    match f x with
    | .ok y =>
      match mapE f xs with
      | .ok ys => .ok (y :: ys)
      | .error e => .error e
    | .error e => .error e

/-- One unfolding of `parse`, with `p` standing for the recursive calls.
Mirrors the source: the single-character case first (empty input falls through
to `s[0]`, an `IndexError`); then, on `(`, find the matching parenthesis —
`None` if unbalanced, which makes the later `s[to+1:]` a `TypeError` after the
inner parse — assert the `(1-` prefix, parse the inside as a negation, and if
characters remain parse them and combine as a product; on any other first
character, parse `s[0:1]` and likewise combine with the parsed remainder. -/
def parseBody (p : List Char → Except PyError Function) :
    List Char → Except PyError Function
  | [] => .error .indexError
  | [c] => parseChar c [c]
  | c :: c2 :: cs =>
    if c = '(' then
      match matching_parenthesis (c :: c2 :: cs) with
      | some idx =>
        if (c :: c2 :: cs).take 3 = ['(', '1', '-'] then
          match p (pySlice (c :: c2 :: cs) 3 idx) with
          | .ok inside =>
            if idx = (c :: c2 :: cs).length - 1 then
              .ok (.NegationFunction inside)
            else
              match p ((c :: c2 :: cs).drop (idx + 1)) with
              | .ok right =>
                .ok (.MultiplicationFunction (.NegationFunction inside) right)
              | .error e => .error e
          | .error e => .error e
        else .error .assertionError
      | none =>
        if (c :: c2 :: cs).take 3 = ['(', '1', '-'] then
          match p ((c :: c2 :: cs).drop 3) with
          | .ok _ => .error .typeError
          | .error e => .error e
        else .error .assertionError
    else
      match p [c] with
      | .ok first =>
        match p (c2 :: cs) with
        | .ok right => .ok (.MultiplicationFunction first right)
        | .error e => .error e
      | .error e => .error e

/-- `parse` with explicit recursion fuel (every recursive call consumes one
unit; running out models `RecursionError`). -/
def parseFuel : Nat → List Char → Except PyError Function
  | 0, _ => .error .recursionError
  | fuel + 1, s => parseBody (parseFuel fuel) s

/-- `parse` on a character list.  `s.length + 1` units of fuel always suffice
(`parseFuel_congr` below), so this has exactly the source's semantics. -/
def parseL (s : List Char) : Except PyError Function := parseFuel (s.length + 1) s

/-- `parse(s)` on a Python string. -/
def parse (s : String) : Except PyError Function := parseL s.data

/-- The normalized `Equation`: an ordered variable list and the moduli table,
a dict from assignment tuples to 0/1 kept in insertion order. -/
structure Equation where
  symbols : List Symbol
  moduli : List (List Int × Int)
deriving DecidableEq

/-- One term of `Equation.__repr__`: for each variable/value pair in order,
append the bare letter at value 1 and `(1-letter)` otherwise. -/
def termOf (symbols : List Symbol) (values : List Int) : String :=
  (symbols.zip values).foldl
    (fun acc p => acc ++ (if p.2 = 1 then p.1 else "(1-" ++ p.1 ++ ")")) ""

/-- `Equation.__repr__`: one term per table entry with nonzero modulus, in
table order, joined by `" + "` with `" = 0"` appended; `"0 = 0"` when no
modulus is nonzero. -/
def reprEquation (eq : Equation) : String :=
  let terms := (eq.moduli.filter (fun p => p.2 ≠ 0)).map (fun p => termOf eq.symbols p.1)
  if terms = [] then "0 = 0" else String.intercalate " + " terms ++ " = 0"

/-- `itertools.product([0, 1], repeat=n)`: all 0/1 tuples of length `n`, the
first coordinate varying slowest. -/
def allAssignments : Nat → List (List Int)
  | 0 => [[]]
  | n + 1 =>
    (allAssignments n).map (fun t => 0 :: t) ++ (allAssignments n).map (fun t => 1 :: t)

/-- `create_normalized_equation(lhs, rhs, symbols)`: for every assignment in
product order, modulus 0 when `lhs - rhs` evaluates to zero and 1 otherwise. -/
def create_normalized_equation (lhs rhs : Function) (symbols : List Symbol) :
    Except PyError Equation :=
  match mapE (fun (values : List Int) =>
      let value_map := symbols.zip values
      match call lhs value_map with
      | .ok l =>
        match call rhs value_map with
        | .ok r => .ok (values, if l - r = 0 then (0 : Int) else 1)
        | .error e => .error e
      | .error e => .error e)
    (allAssignments symbols.length) with
  | .ok moduli => .ok ⟨symbols, moduli⟩
  | .error e => .error e

/-- `equation_conjunction(a, b)`: `assert a.symbols == b.symbols`, then for
every key of `a` in order, modulus 1 when either input has modulus 1 (the `or`
short-circuits, so `b` is only consulted when `a`'s modulus is not 1). -/
def equation_conjunction (a b : Equation) : Except PyError Equation :=
  if a.symbols = b.symbols then
    match mapE (fun (p : List Int × Int) =>
        if p.2 = 1 then .ok (p.1, (1 : Int))
        else
          match dictGet b.moduli p.1 with
          | some bv => .ok (p.1, if bv = 1 then (1 : Int) else 0)
          | none => .error (.keyErrorTuple p.1))
      a.moduli with
    | .ok moduli => .ok ⟨a.symbols, moduli⟩
    | .error e => .error e
  else .error .assertionError

/-- `list.index(x)`: index of the first occurrence, `None` here standing for
Python's `ValueError`. -/
def pyIndex : List Symbol → Symbol → Option Nat
  | [], _ => none
  | a :: as, x => if a = x then some 0 else (pyIndex as x).map (· + 1)

/-- `pyIndex` wrapped with `list.index`'s `ValueError`. -/
def pyIndexE (l : List Symbol) (x : Symbol) : Except PyError Nat :=
  match pyIndex l x with
  | some k => .ok k
  | none => .error (.valueError (x ++ " is not in list"))

/-- `list.pop(k)` (the removed-element return value is unused by the source,
so only the remaining list is produced); out of range is `IndexError`. -/
def pyPop {α : Type} (l : List α) (k : Nat) : Except PyError (List α) :=
  if k < l.length then .ok (l.eraseIdx k) else .error .indexError

/-- Keys of a dict built by first-seen insertion: the distinct keys of the
pair list in first-occurrence order. -/
def dedupFirst : List (List Int) → List (List Int)
  | [] => []
  | x :: xs => x :: (dedupFirst xs).filter (fun y => y ≠ x)

/-- `eliminate_symbol(eq, symbol)`: drop `symbol`'s coordinate from every key
(`eq.symbols.index(symbol)` raising `ValueError` when absent), count for each
projected key how many of its completions have modulus 1 (the dict
`eliminated_count`, keyed in first-occurrence order), keep modulus 1 exactly
for count 2, and remove `symbol` from the variable list. -/
def eliminate_symbol (eq : Equation) (symbol : Symbol) : Except PyError Equation :=
  match mapE (fun (p : List Int × Int) =>
      match pyIndexE eq.symbols symbol with
      | .ok k =>
        match pyPop p.1 k with
        | .ok values2 => .ok (values2, p.2)
        | .error e => .error e
      | .error e => .error e)
    eq.moduli with
  | .ok pairs =>
    let keys := dedupFirst (pairs.map Prod.fst)
    let moduli := keys.map (fun key =>
      (key, if pairs.countP (fun q => decide (q.1 = key ∧ q.2 = 1)) = 2 then (1 : Int) else 0))
    match pyIndexE eq.symbols symbol with
    | .ok k =>
      match pyPop eq.symbols k with
      | .ok symbols2 => .ok ⟨symbols2, moduli⟩
      | .error e => .error e
    | .error e => .error e
  | .error e => .error e

/-- Grammar well-formedness of an expression: symbols are single lowercase
letters (the parser's `[a-z]`), constants are 0 or 1 (`[01]`). -/
def wfB : Function → Bool
  | .SymbolFunction s =>
    match s.data with
    | [c] => decide ('a' ≤ c) && decide (c ≤ 'z')
    | _ => false
  | .ConstantFunction v => decide (v = 0) || decide (v = 1)
  | .NegationFunction b => wfB b
  | .MultiplicationFunction l r => wfB l && wfB r

/-- The symbols occurring in an expression. -/
def fsymbols : Function → List Symbol
  | .SymbolFunction s => [s]
  | .ConstantFunction _ => []
  | .NegationFunction b => fsymbols b
  | .MultiplicationFunction l r => fsymbols l ++ fsymbols r

/-- The data-model invariant on `Equation` (spec §3): distinct variables and a
moduli table that is the complete truth table, with one 0/1 entry per
assignment in the normalizer's enumeration order — the canonical form every
`Equation` the engine constructs has. -/
def wellFormedB (eq : Equation) : Bool :=
  eq.symbols.Nodup &&
    decide (eq.moduli.map Prod.fst = allAssignments eq.symbols.length) &&
    eq.moduli.all (fun p => decide (p.2 = 0) || decide (p.2 = 1))

/-- The table function of an equation: the modulus at a key, 0 by default. -/
def tableFun (eq : Equation) (v : List Int) : Int := (dictGet eq.moduli v).getD 0

/-- The value of an assignment tuple read as a binary number, head as the most
significant bit. -/
def binVal (v : List Int) : Nat := v.foldl (fun a b => 2 * a + b.toNat) 0

/-- Insert a value at position `k` (append when `k` exceeds the length). -/
def insertAt : Nat → Int → List Int → List Int
  | 0, b, l => b :: l
  | _ + 1, b, [] => [b]
  | k + 1, b, x :: xs => x :: insertAt k b xs

end Booles

namespace Booles

/-- Specification-side error kinds named by the spec's error-handling design. -/
inductive SpecErrorKind where
  | parseError
  | unboundSymbol
  | variableMismatch
  | unknownVariable
deriving DecidableEq

/-- A tautological two-variable equation over `x`, used as concrete data. -/
def eqOverX : Equation := ⟨["x"], [([0], 0), ([1], 0)]⟩

/-- The same table but scoped over `y`, used as concrete data. -/
def eqOverY : Equation := ⟨["y"], [([0], 0), ([1], 0)]⟩

/-- C1: End-to-end Barbara syllogism: with
`p1 = normalize(parse "y", parse "xy", ["x","y","z"])` and
`p2 = normalize(parse "z", parse "yz", ["x","y","z"])`, rendering
`eliminate(conjoin(p1, p2), "y")` yields exactly the string `"(1-x)z = 0"`. -/
theorem barbara_end_to_end :
    (do
      let l1 ← parse "y"
      let r1 ← parse "xy"
      let l2 ← parse "z"
      let r2 ← parse "yz"
      let p1 ← create_normalized_equation l1 r1 ["x", "y", "z"]
      let p2 ← create_normalized_equation l2 r2 ["x", "y", "z"]
      let c ← equation_conjunction p1 p2
      let e ← eliminate_symbol c "y"
      Except.ok (reprEquation e)) = Except.ok "(1-x)z = 0" := by
  decide

/-- C7 counterexample: juxtaposition parses right-nested, not left-nested:
`parse "xyz"` is `Product(x, Product(y, z))`, which differs from the
left-nested tree `Product(Product(x, y), z)` the claim requires. -/
theorem parse_xyz_right_nested :
    parse "xyz" = .ok (.MultiplicationFunction (.SymbolFunction "x")
        (.MultiplicationFunction (.SymbolFunction "y") (.SymbolFunction "z"))) ∧
      Function.MultiplicationFunction (.SymbolFunction "x")
          (.MultiplicationFunction (.SymbolFunction "y") (.SymbolFunction "z")) ≠
        .MultiplicationFunction
          (.MultiplicationFunction (.SymbolFunction "x") (.SymbolFunction "y"))
          (.SymbolFunction "z") := by
  decide

/-- C6 counterexample: the failures do not each carry a designated named error
kind.  A `(` not followed by `1-` makes `parse` fail with the bare
`AssertionError`, and conjoining equations with differing variable lists fails
with the very same bare `AssertionError`; hence no assignment of spec error
kinds to raised errors can make the former a `ParseError` and the latter a
`VariableMismatch`. -/
theorem no_designated_error_kinds :
    parse "(x)" = .error .assertionError ∧
      equation_conjunction eqOverX eqOverY = .error .assertionError ∧
      ¬∃ kind : PyError → SpecErrorKind,
        (∀ err, parse "(x)" = .error err → kind err = .parseError) ∧
          (∀ err, equation_conjunction eqOverX eqOverY = .error err →
            kind err = .variableMismatch) := by
  refine ⟨by decide, by decide, ?_⟩
  rintro ⟨kind, h1, h2⟩
  have ha := h1 .assertionError (by decide)
  have hb := h2 .assertionError (by decide)
  rw [ha] at hb
  exact absurd hb (by decide)

/-- C6 amended: every listed invalid input or precondition violation does fail
— the engine never silently accepts — but with miscellaneous Python exceptions
rather than one designated kind per spec category: `parse` raises `IndexError`
on empty input, `ValueError` on an unrecognized single character,
`AssertionError` on a `(` not followed by the literal `1-`, and `TypeError` on
unbalanced parentheses; evaluation of a symbol absent from the assignment
raises `KeyError`; conjoining equations with differing variable lists raises
`AssertionError` (the same error as the parser's assertion); eliminating a
symbol not in the equation's variables raises `ValueError`. -/
theorem error_kinds_actual :
    parse "" = .error .indexError ∧
      parse "?" = .error (.valueError "Cannot parse ?") ∧
      parse "(x)" = .error .assertionError ∧
      parse "(1-x" = .error .typeError ∧
      call (.SymbolFunction "x") [] = .error (.keyError "x") ∧
      equation_conjunction eqOverX eqOverY = .error .assertionError ∧
      eliminate_symbol eqOverX "w" = .error (.valueError "w is not in list") := by
  decide

/-- C2 counterexample: `normalize` does not build a forbidden table for every
pair of expressions and variable list: when the left-hand side mentions a
symbol outside the variable list, evaluation raises `KeyError` and no equation
is produced at all. -/
theorem normalize_unbound_symbol_fails :
    create_normalized_equation (.SymbolFunction "w") (.ConstantFunction 0) ["x"] =
        .error (.keyError "w") ∧
      ¬∃ eq : Equation,
        create_normalized_equation (.SymbolFunction "w") (.ConstantFunction 0) ["x"] =
          .ok eq := by
  refine ⟨by decide, ?_⟩
  rintro ⟨eq, h⟩
  rw [show create_normalized_equation (.SymbolFunction "w") (.ConstantFunction 0) ["x"] =
    .error (.keyError "w") from by decide] at h
  exact absurd h (by simp)

end Booles

namespace Booles

lemma mem_allAssignments {n : Nat} {v : List Int} :
    v ∈ allAssignments n ↔ v.length = n ∧ ∀ x ∈ v, x = 0 ∨ x = 1 := by
  induction n generalizing v with
  | zero =>
    simp [allAssignments, List.length_eq_zero]
    rintro rfl
    simp
  | succ n ih =>
    simp only [allAssignments, List.mem_append, List.mem_map]
    constructor
    · rintro (⟨t, ht, rfl⟩ | ⟨t, ht, rfl⟩) <;> obtain ⟨hl, hm⟩ := ih.mp ht <;>
        refine ⟨by simp [hl], ?_⟩ <;> intro x hx <;> rcases List.mem_cons.mp hx with rfl | hx
      · left; rfl
      · exact hm x hx
      · right; rfl
      · exact hm x hx
    · rintro ⟨hl, hm⟩
      cases v with
      | nil => simp at hl
      | cons b t =>
        have ht : t ∈ allAssignments n :=
          ih.mpr ⟨by simpa using hl, fun x hx => hm x (List.mem_cons_of_mem _ hx)⟩
        rcases hm b (List.mem_cons_self _ _) with rfl | rfl
        · exact Or.inl ⟨t, ht, rfl⟩
        · exact Or.inr ⟨t, ht, rfl⟩

lemma nodup_allAssignments (n : Nat) : (allAssignments n).Nodup := by
  induction n with
  | zero => simp [allAssignments]
  | succ n ih =>
    refine List.Nodup.append (ih.map ?_) (ih.map ?_) ?_
    · intro a b h; simpa using h
    · intro a b h; simpa using h
    · intro a ha hb
      obtain ⟨t, _, rfl⟩ := List.mem_map.mp ha
      obtain ⟨s, _, h⟩ := List.mem_map.mp hb
      simp at h

lemma length_allAssignments (n : Nat) : (allAssignments n).length = 2 ^ n := by
  induction n with
  | zero => simp [allAssignments]
  | succ n ih => simp [allAssignments, ih, Nat.pow_succ]; omega

lemma binVal_foldl (t : List Int) (a : Nat) :
    t.foldl (fun a b => 2 * a + b.toNat) a = a * 2 ^ t.length + binVal t := by
  induction t generalizing a with
  | nil => simp [binVal]
  | cons x t ih =>
    have hx : binVal (x :: t) = x.toNat * 2 ^ t.length + binVal t := by
      show t.foldl _ (2 * 0 + x.toNat) = _
      rw [ih]; ring_nf
    rw [List.foldl_cons, ih, hx]
    simp [List.length_cons, Nat.pow_succ]; ring

lemma binVal_cons (b : Int) (t : List Int) :
    binVal (b :: t) = b.toNat * 2 ^ t.length + binVal t := by
  show t.foldl _ (2 * 0 + b.toNat) = _
  rw [binVal_foldl]; ring_nf

lemma binVal_allAssignments (n : Nat) :
    (allAssignments n).map binVal = List.range (2 ^ n) := by
  induction n with
  | zero =>
    simp only [allAssignments, List.map_cons, List.map_nil]
    decide
  | succ n ih =>
    simp only [allAssignments, List.map_append, List.map_map]
    have h0 : (allAssignments n).map (binVal ∘ (fun t => 0 :: t)) = List.range (2 ^ n) := by
      rw [← ih]
      refine List.map_congr_left (fun t ht => ?_)
      simp [Function.comp, binVal_cons]
    have h1 : (allAssignments n).map (binVal ∘ (fun t => 1 :: t)) =
        (List.range (2 ^ n)).map (fun m => 2 ^ n + m) := by
      rw [← ih, List.map_map]
      refine List.map_congr_left (fun t ht => ?_)
      have hlen : t.length = n := (mem_allAssignments.mp ht).1
      simp [Function.comp, binVal_cons, hlen]
    rw [h0, h1, ← List.range_add]
    congr 1
    omega

lemma dictGet_map_self {A : List (List Int)} {f : List Int → Int} (v : List Int) :
    dictGet (A.map (fun t => (t, f t))) v = if v ∈ A then some (f v) else none := by
  induction A with
  | nil => simp [dictGet]
  | cons a A ih =>
    simp only [List.map_cons, dictGet]
    by_cases h : a = v
    · subst h; simp
    · simp only [if_neg h, ih, List.mem_cons]
      by_cases hv : v ∈ A
      · simp [hv]
      · simp [hv, Ne.symm h]

lemma mapE_eq_map {α β : Type} {f : α → Except PyError β} {g : α → β} {l : List α}
    (h : ∀ x ∈ l, f x = .ok (g x)) : mapE f l = .ok (l.map g) := by
  induction l with
  | nil => rfl
  | cons x xs ih =>
    simp only [mapE, h x (List.mem_cons_self _ _), ih (fun y hy => h y (List.mem_cons_of_mem _ hy)),
      List.map_cons]

lemma call_isOk {e : Function} {vm : SymbolValues}
    (h : ∀ sym ∈ fsymbols e, (dictGet vm sym).isSome) : ∃ x, call e vm = .ok x := by
  induction e with
  | SymbolFunction s =>
    have hs := h s (by simp [fsymbols])
    obtain ⟨x, hx⟩ := Option.isSome_iff_exists.mp hs
    exact ⟨x, by simp [call, hx]⟩
  | ConstantFunction v => exact ⟨v, rfl⟩
  | NegationFunction b ih =>
    obtain ⟨x, hx⟩ := ih (fun sym hs => h sym (by simpa [fsymbols] using hs))
    exact ⟨1 - x, by simp [call, hx]⟩
  | MultiplicationFunction l r ihl ihr =>
    obtain ⟨x, hx⟩ := ihl (fun sym hs => h sym (by simp [fsymbols, hs]))
    obtain ⟨y, hy⟩ := ihr (fun sym hs => h sym (by simp [fsymbols, hs]))
    exact ⟨x * y, by simp [call, hx, hy]⟩

lemma call_bool {e : Function} {vm : SymbolValues} (hwf : wfB e = true)
    (h : ∀ sym ∈ fsymbols e, dictGet vm sym = some 0 ∨ dictGet vm sym = some 1) :
    call e vm = .ok 0 ∨ call e vm = .ok 1 := by
  induction e with
  | SymbolFunction s =>
    rcases h s (by simp [fsymbols]) with hs | hs <;> simp [call, hs]
  | ConstantFunction v =>
    have : v = 0 ∨ v = 1 := by simpa [wfB] using hwf
    rcases this with rfl | rfl <;> simp [call]
  | NegationFunction b ih =>
    rcases ih (by simpa [wfB] using hwf) (fun sym hs => h sym (by simpa [fsymbols] using hs)) with
      hb | hb <;> simp [call, hb]
  | MultiplicationFunction l r ihl ihr =>
    have hwl : wfB l = true := by simp [wfB] at hwf; exact hwf.1
    have hwr : wfB r = true := by simp [wfB] at hwf; exact hwf.2
    rcases ihl hwl (fun sym hs => h sym (by simp [fsymbols, hs])) with hl | hl <;>
      rcases ihr hwr (fun sym hs => h sym (by simp [fsymbols, hs])) with hr | hr <;>
        simp [call, hl, hr]

lemma dictGet_zip_isSome {symbols : List Symbol} {v : List Int} {s : Symbol}
    (hs : s ∈ symbols) (hl : v.length = symbols.length) :
    (dictGet (symbols.zip v) s).isSome := by
  induction symbols generalizing v with
  | nil => simp at hs
  | cons a rest ih =>
    cases v with
    | nil => simp at hl
    | cons x v' =>
      simp only [List.zip_cons_cons, dictGet]
      by_cases h : a = s
      · simp [h]
      · rcases List.mem_cons.mp hs with rfl | hs'
        · exact absurd rfl h
        · simpa [h] using ih hs' (by simpa using hl)

lemma dictGet_zip_mem {symbols : List Symbol} {v : List Int} {s : Symbol} {x : Int}
    (h : dictGet (symbols.zip v) s = some x) : x ∈ v := by
  induction symbols generalizing v with
  | nil => simp [dictGet] at h
  | cons a rest ih =>
    cases v with
    | nil => simp [dictGet] at h
    | cons y v' =>
      simp only [List.zip_cons_cons, dictGet] at h
      by_cases ha : a = s
      · simp only [if_pos ha, Option.some.injEq] at h
        simp [h.symm]
      · exact List.mem_cons_of_mem _ (ih (by simpa [ha] using h))

/-- C10: evaluation is insensitive to extra bindings: if two assignments bind
every symbol occurring in `e` and agree on those symbols, `call` returns the
same result on both, so only the occurring symbols' values matter. -/
theorem call_extra_bindings (e : Function) (v1 v2 : SymbolValues)
    (h : ∀ sym ∈ fsymbols e, ∃ x : Int, dictGet v1 sym = some x ∧ dictGet v2 sym = some x) :
    call e v1 = call e v2 := by
  induction e with
  | SymbolFunction s =>
    obtain ⟨x, h1, h2⟩ := h s (by simp [fsymbols])
    simp [call, h1, h2]
  | ConstantFunction v => rfl
  | NegationFunction b ih =>
    rw [call, call, ih (fun sym hs => h sym (by simpa [fsymbols] using hs))]
  | MultiplicationFunction l r ihl ihr =>
    rw [call, call, ihl (fun sym hs => h sym (by simp [fsymbols, hs])),
      ihr (fun sym hs => h sym (by simp [fsymbols, hs]))]

/-- Witness for C10 at a concrete input: `x(1-y)` evaluated under
`{"x": 1, "y": 0}` and under `{"y": 0, "x": 1, "z": 7}` gives the same
result. -/
theorem call_extra_bindings_witness :
    call (.MultiplicationFunction (.SymbolFunction "x") (.NegationFunction (.SymbolFunction "y")))
        [("x", 1), ("y", 0)] =
      call (.MultiplicationFunction (.SymbolFunction "x") (.NegationFunction (.SymbolFunction "y")))
        [("y", 0), ("x", 1), ("z", 7)] :=
  call_extra_bindings _ _ _ (by decide)

end Booles

namespace Booles

/-- The value inside an `ok` result (0 for errors; only used where success is
already known). -/
def okVal (r : Except PyError Int) : Int :=
  match r with
  | .ok x => x
  | .error _ => 0

lemma normalize_ok (lhs rhs : Function) (symbols : List Symbol)
    (hl : ∀ s ∈ fsymbols lhs, s ∈ symbols) (hr : ∀ s ∈ fsymbols rhs, s ∈ symbols) :
    create_normalized_equation lhs rhs symbols =
      .ok ⟨symbols, (allAssignments symbols.length).map (fun v =>
        (v, if okVal (call lhs (symbols.zip v)) - okVal (call rhs (symbols.zip v)) = 0
            then (0 : Int) else 1))⟩ := by
  have hmap : ∀ v ∈ allAssignments symbols.length,
      (fun (values : List Int) =>
        match call lhs (symbols.zip values) with
        | .ok l =>
          match call rhs (symbols.zip values) with
          | .ok r => Except.ok (values, if l - r = 0 then (0 : Int) else 1)
          | .error e => Except.error e
        | .error e => Except.error e) v =
      Except.ok ((fun v => (v,
        if okVal (call lhs (symbols.zip v)) - okVal (call rhs (symbols.zip v)) = 0
        then (0 : Int) else 1)) v) := by
    intro v hv
    have hlen : v.length = symbols.length := (mem_allAssignments.mp hv).1
    obtain ⟨lv, hlv⟩ := call_isOk
      (show ∀ sym ∈ fsymbols lhs, (dictGet (symbols.zip v) sym).isSome from
        fun s hs => dictGet_zip_isSome (hl s hs) hlen)
    obtain ⟨rv, hrv⟩ := call_isOk
      (show ∀ sym ∈ fsymbols rhs, (dictGet (symbols.zip v) sym).isSome from
        fun s hs => dictGet_zip_isSome (hr s hs) hlen)
    simp [hlv, hrv, okVal]
  unfold create_normalized_equation
  rw [mapE_eq_map hmap]

/-- C2 (amended: the symbols occurring in `lhs` and `rhs` must lie in
`variables`, otherwise evaluation raises `KeyError` and no table is built):
`normalize` enumerates all `2^n` assignments in ascending binary order with
`variables[0]` as the most significant bit (the table keys, read as binary
numbers, are exactly `0, 1, ..., 2^n - 1` in order), the table has exactly
`2^n` entries — one per 0/1 assignment, none missing, none extra — and each
entry holds 0 exactly when `evaluate(lhs) - evaluate(rhs) == 0` and 1
otherwise. -/
theorem normalize_table (lhs rhs : Function) (symbols : List Symbol)
    (hnd : symbols.Nodup)
    (hl : ∀ s ∈ fsymbols lhs, s ∈ symbols) (hr : ∀ s ∈ fsymbols rhs, s ∈ symbols) :
    ∃ eq : Equation, create_normalized_equation lhs rhs symbols = .ok eq ∧
      eq.symbols = symbols ∧
      eq.moduli.map Prod.fst = allAssignments symbols.length ∧
      eq.moduli.length = 2 ^ symbols.length ∧
      (eq.moduli.map Prod.fst).Nodup ∧
      (∀ v : List Int, v ∈ eq.moduli.map Prod.fst ↔
        v.length = symbols.length ∧ ∀ x ∈ v, x = 0 ∨ x = 1) ∧
      eq.moduli.map (fun p => binVal p.1) = List.range (2 ^ symbols.length) ∧
      ∀ p ∈ eq.moduli, ∃ lv rv : Int,
        call lhs (symbols.zip p.1) = .ok lv ∧ call rhs (symbols.zip p.1) = .ok rv ∧
          p.2 = if lv - rv = 0 then 0 else 1 := by
  refine ⟨_, normalize_ok lhs rhs symbols hl hr, rfl, ?_, ?_, ?_, ?_, ?_, ?_⟩
  · simp [List.map_map, Function.comp_def]
  · simp [List.map_map, length_allAssignments]
  · simpa [List.map_map, Function.comp_def] using nodup_allAssignments symbols.length
  · intro v
    simpa [List.map_map, Function.comp_def] using
      (@mem_allAssignments symbols.length v)
  · rw [List.map_map]
    exact binVal_allAssignments symbols.length
  · intro p hp
    obtain ⟨v, hv, rfl⟩ := List.mem_map.mp hp
    have hlen : v.length = symbols.length := (mem_allAssignments.mp hv).1
    obtain ⟨lv, hlv⟩ := call_isOk
      (show ∀ sym ∈ fsymbols lhs, (dictGet (symbols.zip v) sym).isSome from
        fun s hs => dictGet_zip_isSome (hl s hs) hlen)
    obtain ⟨rv, hrv⟩ := call_isOk
      (show ∀ sym ∈ fsymbols rhs, (dictGet (symbols.zip v) sym).isSome from
        fun s hs => dictGet_zip_isSome (hr s hs) hlen)
    exact ⟨lv, rv, hlv, hrv, by simp [okVal, hlv, hrv]⟩

/-- Witness for C2 at `normalize(parse-like x, xy, ["x","y"])`: the premise
"all Xs are Ys" produces its complete ordered two-variable table. -/
theorem normalize_table_witness :
    ∃ eq : Equation,
      create_normalized_equation (.SymbolFunction "x")
          (.MultiplicationFunction (.SymbolFunction "x") (.SymbolFunction "y"))
          ["x", "y"] = .ok eq ∧
        eq.symbols = ["x", "y"] ∧
        eq.moduli.map Prod.fst = allAssignments (["x", "y"] : List Symbol).length ∧
        eq.moduli.length = 2 ^ (["x", "y"] : List Symbol).length ∧
        (eq.moduli.map Prod.fst).Nodup ∧
        (∀ v : List Int, v ∈ eq.moduli.map Prod.fst ↔
          v.length = (["x", "y"] : List Symbol).length ∧ ∀ x ∈ v, x = 0 ∨ x = 1) ∧
        eq.moduli.map (fun p => binVal p.1) = List.range (2 ^ (["x", "y"] : List Symbol).length) ∧
        ∀ p ∈ eq.moduli, ∃ lv rv : Int,
          call (.SymbolFunction "x") ((["x", "y"] : List Symbol).zip p.1) = .ok lv ∧
            call (.MultiplicationFunction (.SymbolFunction "x") (.SymbolFunction "y"))
                ((["x", "y"] : List Symbol).zip p.1) = .ok rv ∧
              p.2 = if lv - rv = 0 then 0 else 1 :=
  normalize_table _ _ _ (by decide) (by decide) (by decide)

end Booles

namespace Booles

lemma ite01 (p : Prop) [Decidable p] :
    (if p then (1 : Int) else 0) = 0 ∨ (if p then (1 : Int) else 0) = 1 := by
  by_cases h : p <;> simp [h]

lemma dictGet_mem {α β : Type} [DecidableEq α] {l : List (α × β)} {k : α} {y : β}
    (h : dictGet l k = some y) : (k, y) ∈ l := by
  induction l with
  | nil => simp [dictGet] at h
  | cons p ps ih =>
    by_cases hp : p.1 = k
    · simp only [dictGet, if_pos hp, Option.some.injEq] at h
      subst hp; subst h
      simp
    · simp only [dictGet, if_neg hp] at h
      exact List.mem_cons_of_mem _ (ih h)

lemma assoc_eq_map {l : List (List Int × Int)} {A : List (List Int)}
    (hk : l.map Prod.fst = A) (hnd : A.Nodup) :
    l = A.map (fun v => (v, (dictGet l v).getD 0)) := by
  induction l generalizing A with
  | nil => simp at hk; simp [← hk]
  | cons p l ih =>
    cases A with
    | nil => simp at hk
    | cons a A' =>
      obtain ⟨hpa, hk'⟩ : p.1 = a ∧ l.map Prod.fst = A' := by simpa using hk
      have hnotmem : a ∉ A' := (List.nodup_cons.mp hnd).1
      simp only [List.map_cons, List.cons.injEq]
      constructor
      · rw [← hpa]
        simp [dictGet]
      · have hmap : A'.map (fun v => (v, (dictGet (p :: l) v).getD 0)) =
            A'.map (fun v => (v, (dictGet l v).getD 0)) := by
          refine List.map_congr_left (fun v hv => ?_)
          have hvne : p.1 ≠ v := by
            rw [hpa]; rintro rfl; exact hnotmem hv
          simp [dictGet, hvne]
        rw [hmap]
        exact ih hk' (List.nodup_cons.mp hnd).2

lemma wellFormedB_iff {eq : Equation} :
    wellFormedB eq = true ↔
      eq.symbols.Nodup ∧ eq.moduli.map Prod.fst = allAssignments eq.symbols.length ∧
        ∀ p ∈ eq.moduli, p.2 = 0 ∨ p.2 = 1 := by
  simp [wellFormedB, List.all_eq_true, and_assoc]

lemma wellFormed_table {eq : Equation} (h : wellFormedB eq = true) :
    eq.moduli = (allAssignments eq.symbols.length).map (fun v => (v, tableFun eq v)) ∧
      ∀ v, tableFun eq v = 0 ∨ tableFun eq v = 1 := by
  obtain ⟨hnd, hkeys, hvals⟩ := wellFormedB_iff.mp h
  constructor
  · exact assoc_eq_map hkeys (hkeys ▸ nodup_allAssignments eq.symbols.length)
  · intro v
    unfold tableFun
    cases hg : dictGet eq.moduli v with
    | none => simp
    | some y =>
      simpa using hvals _ (dictGet_mem hg)

lemma wf_mk {S : List Symbol} (hnd : S.Nodup) {g : List Int → Int}
    (hg : ∀ v, g v = 0 ∨ g v = 1) :
    wellFormedB ⟨S, (allAssignments S.length).map (fun v => (v, g v))⟩ = true := by
  refine wellFormedB_iff.mpr ⟨hnd, ?_, ?_⟩
  · simp [List.map_map, Function.comp_def]
  · intro p hp
    obtain ⟨v, _, rfl⟩ := List.mem_map.mp hp
    exact hg v

lemma tableFun_mk {S : List Symbol} {g : List Int → Int} {v : List Int}
    (hv : v ∈ allAssignments S.length) :
    tableFun ⟨S, (allAssignments S.length).map (fun w => (w, g w))⟩ v = g v := by
  unfold tableFun
  rw [show dictGet ((allAssignments S.length).map (fun w => (w, g w))) v =
    if v ∈ allAssignments S.length then some (g v) else none from dictGet_map_self v,
    if_pos hv]
  rfl

lemma conj_ok {a b : Equation} (ha : wellFormedB a = true) (hb : wellFormedB b = true)
    (hab : a.symbols = b.symbols) :
    equation_conjunction a b = .ok ⟨a.symbols,
      (allAssignments a.symbols.length).map (fun v =>
        (v, if tableFun a v = 1 ∨ tableFun b v = 1 then (1 : Int) else 0))⟩ := by
  obtain ⟨haT, haV⟩ := wellFormed_table ha
  obtain ⟨hbT, hbV⟩ := wellFormed_table hb
  unfold equation_conjunction
  rw [if_pos hab]
  have hstep : ∀ p ∈ a.moduli,
      (fun (p : List Int × Int) =>
        if p.2 = 1 then (Except.ok (p.1, (1 : Int)) : Except PyError (List Int × Int))
        else
          match dictGet b.moduli p.1 with
          | some bv => Except.ok (p.1, if bv = 1 then (1 : Int) else 0)
          | none => Except.error (PyError.keyErrorTuple p.1)) p =
      Except.ok ((fun (p : List Int × Int) =>
        (p.1, if tableFun a p.1 = 1 ∨ tableFun b p.1 = 1 then (1 : Int) else 0)) p) := by
    intro p hp
    rw [haT] at hp
    obtain ⟨v, hv, rfl⟩ := List.mem_map.mp hp
    dsimp only
    by_cases h1 : tableFun a v = 1
    · simp [h1]
    · have hget : dictGet b.moduli v = some (tableFun b v) := by
        rw [hbT]
        rw [show dictGet ((allAssignments b.symbols.length).map
            (fun w => (w, tableFun b w))) v =
          if v ∈ allAssignments b.symbols.length then some (tableFun b v) else none from
          dictGet_map_self v]
        rw [if_pos (by rwa [← hab])]
      rw [if_neg h1, hget]
      by_cases h2 : tableFun b v = 1 <;> simp [h1, h2]
  rw [mapE_eq_map hstep, haT, List.map_map]
  rfl

/-- C4: over well-formed equations sharing one variable list, `conjoin`
computes the pointwise OR of the forbidden indicators and is commutative,
idempotent, associative and monotonic (an assignment forbidden by either input
stays forbidden). -/
theorem conjunction_laws (a b c : Equation)
    (ha : wellFormedB a = true) (hb : wellFormedB b = true) (hc : wellFormedB c = true)
    (hab : a.symbols = b.symbols) (hbc : b.symbols = c.symbols) :
    (∃ x, equation_conjunction a b = .ok x ∧ equation_conjunction b a = .ok x) ∧
      equation_conjunction a a = .ok a ∧
      (∃ ab2 bc2 y, equation_conjunction a b = .ok ab2 ∧ equation_conjunction b c = .ok bc2 ∧
        equation_conjunction ab2 c = .ok y ∧ equation_conjunction a bc2 = .ok y) ∧
      (∃ x, equation_conjunction a b = .ok x ∧
        (∀ v ∈ allAssignments a.symbols.length,
          dictGet x.moduli v = some 1 ↔
            (dictGet a.moduli v = some 1 ∨ dictGet b.moduli v = some 1)) ∧
          ∀ v : List Int, (dictGet a.moduli v = some 1 ∨ dictGet b.moduli v = some 1) →
            dictGet x.moduli v = some 1) := by
  obtain ⟨haT, haV⟩ := wellFormed_table ha
  obtain ⟨hbT, hbV⟩ := wellFormed_table hb
  obtain ⟨hcT, hcV⟩ := wellFormed_table hc
  have hnd : a.symbols.Nodup := (wellFormedB_iff.mp ha).1
  have hlen_b : b.symbols.length = a.symbols.length := by rw [hab]
  have hlen_c : c.symbols.length = a.symbols.length := by rw [hab, hbc]
  have haLook : ∀ v : List Int, dictGet a.moduli v =
      if v ∈ allAssignments a.symbols.length then some (tableFun a v) else none := by
    intro v; rw [haT]; exact dictGet_map_self v
  have hbLook : ∀ v : List Int, dictGet b.moduli v =
      if v ∈ allAssignments a.symbols.length then some (tableFun b v) else none := by
    intro v; rw [hbT, hlen_b]; exact dictGet_map_self v
  refine ⟨?_, ?_, ?_, ?_⟩
  · -- commutativity
    refine ⟨_, conj_ok ha hb hab, ?_⟩
    rw [conj_ok hb ha hab.symm]
    refine congrArg Except.ok ?_
    refine congrArg₂ Equation.mk hab.symm ?_
    rw [hlen_b]
    refine List.map_congr_left (fun v hv => ?_)
    by_cases h1 : tableFun a v = 1 <;> by_cases h2 : tableFun b v = 1 <;> simp [h1, h2]
  · -- idempotence
    rw [conj_ok ha ha rfl]
    refine congrArg Except.ok ?_
    conv_rhs => rw [show a = ⟨a.symbols, a.moduli⟩ from rfl]
    refine congrArg (Equation.mk a.symbols) ?_
    conv_rhs => rw [haT]
    refine List.map_congr_left (fun v hv => ?_)
    rcases haV v with h | h <;> simp [h]
  · -- associativity
    have hor_ab : ∀ v : List Int,
        (if tableFun a v = 1 ∨ tableFun b v = 1 then (1 : Int) else 0) = 0 ∨
          (if tableFun a v = 1 ∨ tableFun b v = 1 then (1 : Int) else 0) = 1 :=
      fun v => ite01 _
    have hor_bc : ∀ v : List Int,
        (if tableFun b v = 1 ∨ tableFun c v = 1 then (1 : Int) else 0) = 0 ∨
          (if tableFun b v = 1 ∨ tableFun c v = 1 then (1 : Int) else 0) = 1 :=
      fun v => ite01 _
    have hwab : wellFormedB ⟨a.symbols,
        (allAssignments a.symbols.length).map (fun v =>
          (v, if tableFun a v = 1 ∨ tableFun b v = 1 then (1 : Int) else 0))⟩ = true :=
      wf_mk hnd hor_ab
    have hwbc : wellFormedB ⟨b.symbols,
        (allAssignments b.symbols.length).map (fun v =>
          (v, if tableFun b v = 1 ∨ tableFun c v = 1 then (1 : Int) else 0))⟩ = true :=
      wf_mk (hab ▸ hnd) hor_bc
    refine ⟨_, _, _, conj_ok ha hb hab, conj_ok hb hc hbc,
      conj_ok hwab hc (hab.trans hbc), ?_⟩
    rw [conj_ok ha hwbc hab]
    refine congrArg Except.ok ?_
    refine congrArg (Equation.mk a.symbols) ?_
    refine List.map_congr_left (fun v hv => ?_)
    rw [tableFun_mk hv, tableFun_mk (by rwa [hlen_b])]
    by_cases h1 : tableFun a v = 1 <;> by_cases h2 : tableFun b v = 1 <;>
      by_cases h3 : tableFun c v = 1 <;> simp [h1, h2, h3]
  · -- pointwise OR and monotonicity
    refine ⟨_, conj_ok ha hb hab, fun v hv => ?_, fun v hv => ?_⟩
    · have hx : dictGet ((allAssignments a.symbols.length).map (fun w =>
          (w, if tableFun a w = 1 ∨ tableFun b w = 1 then (1 : Int) else 0))) v =
          some (if tableFun a v = 1 ∨ tableFun b v = 1 then (1 : Int) else 0) := by
        rw [show dictGet ((allAssignments a.symbols.length).map (fun w =>
            (w, if tableFun a w = 1 ∨ tableFun b w = 1 then (1 : Int) else 0))) v =
          if v ∈ allAssignments a.symbols.length then
            some (if tableFun a v = 1 ∨ tableFun b v = 1 then (1 : Int) else 0)
          else none from dictGet_map_self v, if_pos hv]
      rw [hx, haLook v, hbLook v, if_pos hv, if_pos hv]
      by_cases h1 : tableFun a v = 1 <;> by_cases h2 : tableFun b v = 1 <;> simp [h1, h2]
    · have hvmem : v ∈ allAssignments a.symbols.length := by
        by_cases hm : v ∈ allAssignments a.symbols.length
        · exact hm
        · rcases hv with h | h
          · rw [haLook v, if_neg hm] at h; cases h
          · rw [hbLook v, if_neg hm] at h; cases h
      have hx : dictGet ((allAssignments a.symbols.length).map (fun w =>
          (w, if tableFun a w = 1 ∨ tableFun b w = 1 then (1 : Int) else 0))) v =
          some (if tableFun a v = 1 ∨ tableFun b v = 1 then (1 : Int) else 0) := by
        rw [show dictGet ((allAssignments a.symbols.length).map (fun w =>
            (w, if tableFun a w = 1 ∨ tableFun b w = 1 then (1 : Int) else 0))) v =
          if v ∈ allAssignments a.symbols.length then
            some (if tableFun a v = 1 ∨ tableFun b v = 1 then (1 : Int) else 0)
          else none from dictGet_map_self v, if_pos hvmem]
      rw [haLook v, hbLook v, if_pos hvmem, if_pos hvmem] at hv
      rw [hx]
      rcases hv with h | h <;> simp only [Option.some.injEq] at h <;> simp [h]

end Booles

namespace Booles

/-- Witness for C4 at three concrete well-formed one-variable tables. -/
theorem conjunction_laws_witness :
    (∃ x, equation_conjunction ⟨["x"], [([0], 1), ([1], 0)]⟩ ⟨["x"], [([0], 0), ([1], 1)]⟩ =
          .ok x ∧
        equation_conjunction ⟨["x"], [([0], 0), ([1], 1)]⟩ ⟨["x"], [([0], 1), ([1], 0)]⟩ =
          .ok x) ∧
      equation_conjunction ⟨["x"], [([0], 1), ([1], 0)]⟩ ⟨["x"], [([0], 1), ([1], 0)]⟩ =
        .ok ⟨["x"], [([0], 1), ([1], 0)]⟩ ∧
      (∃ ab2 bc2 y,
        equation_conjunction ⟨["x"], [([0], 1), ([1], 0)]⟩ ⟨["x"], [([0], 0), ([1], 1)]⟩ =
            .ok ab2 ∧
          equation_conjunction ⟨["x"], [([0], 0), ([1], 1)]⟩ eqOverX = .ok bc2 ∧
            equation_conjunction ab2 eqOverX = .ok y ∧
              equation_conjunction ⟨["x"], [([0], 1), ([1], 0)]⟩ bc2 = .ok y) ∧
      (∃ x, equation_conjunction ⟨["x"], [([0], 1), ([1], 0)]⟩ ⟨["x"], [([0], 0), ([1], 1)]⟩ =
          .ok x ∧
        (∀ v ∈ allAssignments (Equation.mk ["x"] [([0], 1), ([1], 0)]).symbols.length,
          dictGet x.moduli v = some 1 ↔
            (dictGet (Equation.mk ["x"] [([0], 1), ([1], 0)]).moduli v = some 1 ∨
              dictGet (Equation.mk ["x"] [([0], 0), ([1], 1)]).moduli v = some 1)) ∧
          ∀ v : List Int,
            (dictGet (Equation.mk ["x"] [([0], 1), ([1], 0)]).moduli v = some 1 ∨
              dictGet (Equation.mk ["x"] [([0], 0), ([1], 1)]).moduli v = some 1) →
              dictGet x.moduli v = some 1) :=
  conjunction_laws ⟨["x"], [([0], 1), ([1], 0)]⟩ ⟨["x"], [([0], 0), ([1], 1)]⟩ eqOverX
    (by decide) (by decide) (by decide) (by decide) (by decide)

end Booles

namespace Booles

lemma insertAt_length (k : Nat) (b : Int) (t : List Int) :
    (insertAt k b t).length = t.length + 1 := by
  induction k generalizing t with
  | zero => rfl
  | succ k ih =>
    cases t with
    | nil => rfl
    | cons x xs => simp [insertAt, ih]

lemma mem_insertAt {k : Nat} {b x : Int} {t : List Int} (h : x ∈ insertAt k b t) :
    x = b ∨ x ∈ t := by
  induction k generalizing t with
  | zero =>
    rcases List.mem_cons.mp h with rfl | hx
    · exact Or.inl rfl
    · exact Or.inr hx
  | succ k ih =>
    cases t with
    | nil =>
      rcases List.mem_cons.mp h with rfl | hx
      · exact Or.inl rfl
      · simp at hx
    | cons y ys =>
      rcases List.mem_cons.mp h with rfl | hx
      · exact Or.inr (List.mem_cons_self _ _)
      · rcases ih hx with h' | h'
        · exact Or.inl h'
        · exact Or.inr (List.mem_cons_of_mem _ h')

lemma insertAt_mem_allAssignments {k m : Nat} {b : Int} {t : List Int}
    (hb : b = 0 ∨ b = 1) (ht : t ∈ allAssignments m) :
    insertAt k b t ∈ allAssignments (m + 1) := by
  obtain ⟨hlen, hmem⟩ := mem_allAssignments.mp ht
  refine mem_allAssignments.mpr ⟨by rw [insertAt_length, hlen], fun x hx => ?_⟩
  rcases mem_insertAt hx with rfl | hx'
  · exact hb
  · exact hmem x hx'

lemma eraseIdx_insertAt {k : Nat} {b : Int} {t : List Int} (hk : k ≤ t.length) :
    (insertAt k b t).eraseIdx k = t := by
  induction k generalizing t with
  | zero => rfl
  | succ k ih =>
    cases t with
    | nil => simp at hk
    | cons x xs =>
      show x :: (insertAt k b xs).eraseIdx k = x :: xs
      rw [ih (by simpa using hk)]

lemma countP_eq_indicator {l : List (List Int)} {t : List Int} (hnd : l.Nodup) (ht : t ∈ l)
    (P : List Int → Prop) [DecidablePred P] :
    l.countP (fun x => decide (x = t ∧ P x)) = if P t then 1 else 0 := by
  induction l with
  | nil => simp at ht
  | cons a l ih =>
    have hnotmem : a ∉ l := (List.nodup_cons.mp hnd).1
    rw [List.countP_cons]
    by_cases ha : a = t
    · subst ha
      have hzero : l.countP (fun x => decide (x = a ∧ P x)) = 0 := by
        refine List.countP_eq_zero.mpr (fun x hx => ?_)
        simp only [decide_eq_true_eq, not_and]
        rintro rfl
        exact absurd hx hnotmem
      rw [hzero]
      by_cases hp : P a <;> simp [hp]
    · have htl : t ∈ l := by
        rcases List.mem_cons.mp ht with rfl | h
        · exact absurd rfl ha
        · exact h
      rw [ih (List.nodup_cons.mp hnd).2 htl]
      simp [ha]

lemma countP_eraseIdx_allAssignments :
    ∀ k : Nat, ∀ m : Nat, k ≤ m → ∀ (f : List Int → Int) (t : List Int),
      t ∈ allAssignments m →
      (allAssignments (m + 1)).countP (fun v => decide (v.eraseIdx k = t ∧ f v = 1)) =
        (if f (insertAt k 0 t) = 1 then 1 else 0) +
          (if f (insertAt k 1 t) = 1 then 1 else 0) := by
  intro k
  induction k with
  | zero =>
    intro m _ f t ht
    show ((allAssignments m).map (fun t => (0 : Int) :: t) ++
        (allAssignments m).map (fun t => (1 : Int) :: t)).countP _ = _
    rw [List.countP_append, List.countP_map, List.countP_map]
    have h0 : (allAssignments m).countP
        ((fun v => decide (v.eraseIdx 0 = t ∧ f v = 1)) ∘ (fun s => (0 : Int) :: s)) =
        (allAssignments m).countP (fun s => decide (s = t ∧ f ((0 : Int) :: s) = 1)) := by
      refine List.countP_congr (fun s hs => ?_)
      simp [List.eraseIdx]
    have h1 : (allAssignments m).countP
        ((fun v => decide (v.eraseIdx 0 = t ∧ f v = 1)) ∘ (fun s => (1 : Int) :: s)) =
        (allAssignments m).countP (fun s => decide (s = t ∧ f ((1 : Int) :: s) = 1)) := by
      refine List.countP_congr (fun s hs => ?_)
      simp [List.eraseIdx]
    rw [h0, h1,
      countP_eq_indicator (nodup_allAssignments m) ht (fun s => f ((0 : Int) :: s) = 1),
      countP_eq_indicator (nodup_allAssignments m) ht (fun s => f ((1 : Int) :: s) = 1)]
    rfl
  | succ k ih =>
    intro m hk f t ht
    cases m with
    | zero => omega
    | succ m' =>
      have hk' : k ≤ m' := by omega
      obtain ⟨hlen, hmem⟩ := mem_allAssignments.mp ht
      cases t with
      | nil => simp at hlen
      | cons c t' =>
        have ht' : t' ∈ allAssignments m' :=
          mem_allAssignments.mpr ⟨by simpa using hlen,
            fun x hx => hmem x (List.mem_cons_of_mem _ hx)⟩
        have hc : c = 0 ∨ c = 1 := hmem c (List.mem_cons_self _ _)
        show ((allAssignments (m' + 1)).map (fun t => (0 : Int) :: t) ++
            (allAssignments (m' + 1)).map (fun t => (1 : Int) :: t)).countP _ = _
        rw [List.countP_append, List.countP_map, List.countP_map]
        have hsplit : ∀ b : Int, (allAssignments (m' + 1)).countP
            ((fun v => decide (v.eraseIdx (k + 1) = c :: t' ∧ f v = 1)) ∘
              (fun s => b :: s)) =
            (allAssignments (m' + 1)).countP
              (fun s => decide (b = c ∧ (s.eraseIdx k = t' ∧ f (b :: s) = 1))) := by
          intro b
          refine List.countP_congr (fun s hs => ?_)
          show decide ((b :: s).eraseIdx (k + 1) = c :: t' ∧ f (b :: s) = 1) = true ↔
            decide (b = c ∧ (s.eraseIdx k = t' ∧ f (b :: s) = 1)) = true
          rw [show (b :: s).eraseIdx (k + 1) = b :: s.eraseIdx k from rfl]
          simp [List.cons.injEq, and_assoc]
        rw [hsplit 0, hsplit 1]
        rcases hc with rfl | rfl
        · have hz : (allAssignments (m' + 1)).countP
              (fun s => decide ((1 : Int) = 0 ∧ (s.eraseIdx k = t' ∧ f (1 :: s) = 1))) = 0 := by
            refine List.countP_eq_zero.mpr (fun s hs => ?_)
            simp
          have he : (allAssignments (m' + 1)).countP
              (fun s => decide ((0 : Int) = 0 ∧ (s.eraseIdx k = t' ∧ f (0 :: s) = 1))) =
              (allAssignments (m' + 1)).countP
                (fun s => decide (s.eraseIdx k = t' ∧ (fun v => f (0 :: v)) s = 1)) := by
            refine List.countP_congr (fun s hs => ?_)
            simp
          rw [hz, he, ih m' hk' (fun v => f (0 :: v)) t' ht']
          show _ + 0 = _
          rw [Nat.add_zero]
          rfl
        · have hz : (allAssignments (m' + 1)).countP
              (fun s => decide ((0 : Int) = 1 ∧ (s.eraseIdx k = t' ∧ f (0 :: s) = 1))) = 0 := by
            refine List.countP_eq_zero.mpr (fun s hs => ?_)
            simp
          have he : (allAssignments (m' + 1)).countP
              (fun s => decide ((1 : Int) = 1 ∧ (s.eraseIdx k = t' ∧ f (1 :: s) = 1))) =
              (allAssignments (m' + 1)).countP
                (fun s => decide (s.eraseIdx k = t' ∧ (fun v => f (1 :: v)) s = 1)) := by
            refine List.countP_congr (fun s hs => ?_)
            simp
          rw [hz, he, ih m' hk' (fun v => f (1 :: v)) t' ht']
          show 0 + _ = _
          rw [Nat.zero_add]
          rfl

end Booles

namespace Booles

lemma dedupFirst_of_nodup {l : List (List Int)} (h : l.Nodup) : dedupFirst l = l := by
  induction l with
  | nil => rfl
  | cons x xs ih =>
    have hx : x ∉ xs := (List.nodup_cons.mp h).1
    rw [dedupFirst, ih (List.nodup_cons.mp h).2]
    congr 1
    refine List.filter_eq_self.mpr (fun y hy => ?_)
    simp only [decide_eq_true_eq]
    rintro rfl
    exact hx hy

lemma dedupFirst_append (l₁ l₂ : List (List Int)) :
    dedupFirst (l₁ ++ l₂) =
      dedupFirst l₁ ++ (dedupFirst l₂).filter (fun y => y ∉ l₁) := by
  induction l₁ with
  | nil =>
    simp only [List.nil_append, dedupFirst, List.nil_append]
    exact (List.filter_eq_self.mpr (fun y hy => by simp)).symm
  | cons x l₁ ih =>
    have step1 : dedupFirst ((x :: l₁) ++ l₂) =
        x :: (dedupFirst (l₁ ++ l₂)).filter (fun y => y ≠ x) := rfl
    have step2 : dedupFirst (x :: l₁) =
        x :: (dedupFirst l₁).filter (fun y => y ≠ x) := rfl
    rw [step1, step2, ih, List.filter_append, List.cons_append]
    congr 1
    congr 1
    rw [List.filter_filter]
    refine List.filter_congr (fun y hy => ?_)
    by_cases h1 : y = x <;> by_cases h2 : y ∈ l₁ <;> simp [h1, h2]

lemma dedupFirst_map_cons (b : Int) (l : List (List Int)) :
    dedupFirst (l.map (fun t => b :: t)) = (dedupFirst l).map (fun t => b :: t) := by
  induction l with
  | nil => rfl
  | cons x xs ih =>
    simp only [List.map_cons, dedupFirst, ih, List.filter_map]
    refine congrArg (_ :: ·) (congrArg _ ?_)
    refine List.filter_congr (fun y hy => ?_)
    simp [Function.comp]

lemma dedupFirst_eraseIdx_allAssignments :
    ∀ k : Nat, ∀ m : Nat, k ≤ m →
      dedupFirst ((allAssignments (m + 1)).map (fun v => v.eraseIdx k)) =
        allAssignments m := by
  intro k
  induction k with
  | zero =>
    intro m _
    show dedupFirst
      (((allAssignments m).map (fun t => (0 : Int) :: t) ++
        (allAssignments m).map (fun t => (1 : Int) :: t)).map (fun v => v.eraseIdx 0)) = _
    rw [List.map_append, List.map_map, List.map_map]
    have h0 : (allAssignments m).map ((fun v : List Int => v.eraseIdx 0) ∘
        (fun t => (0 : Int) :: t)) = allAssignments m := by
      refine List.map_congr_left (fun t ht => rfl) |>.trans (List.map_id' _)
    have h1 : (allAssignments m).map ((fun v : List Int => v.eraseIdx 0) ∘
        (fun t => (1 : Int) :: t)) = allAssignments m := by
      refine List.map_congr_left (fun t ht => rfl) |>.trans (List.map_id' _)
    rw [h0, h1, dedupFirst_append, dedupFirst_of_nodup (nodup_allAssignments m)]
    rw [show (allAssignments m).filter (fun y => y ∉ allAssignments m) = [] from
      List.filter_eq_nil_iff.mpr (fun a ha => by simp [ha])]
    simp
  | succ k ih =>
    intro m hk
    cases m with
    | zero => omega
    | succ m' =>
      have hk' : k ≤ m' := by omega
      show dedupFirst
        (((allAssignments (m' + 1)).map (fun t => (0 : Int) :: t) ++
          (allAssignments (m' + 1)).map (fun t => (1 : Int) :: t)).map
            (fun v => v.eraseIdx (k + 1))) = _
      rw [List.map_append, List.map_map, List.map_map]
      have hcomp : ∀ b : Int, (allAssignments (m' + 1)).map
          ((fun v : List Int => v.eraseIdx (k + 1)) ∘ (fun t => b :: t)) =
          ((allAssignments (m' + 1)).map (fun v => v.eraseIdx k)).map
            (fun t => b :: t) := by
        intro b
        rw [List.map_map]
        exact List.map_congr_left (fun t ht => rfl)
      rw [hcomp 0, hcomp 1, dedupFirst_append, dedupFirst_map_cons, dedupFirst_map_cons,
        ih m' hk']
      have hfil : ((allAssignments m').map (fun t => (1 : Int) :: t)).filter
          (fun y => y ∉ ((allAssignments (m' + 1)).map (fun v => v.eraseIdx k)).map
            (fun t => (0 : Int) :: t)) =
          (allAssignments m').map (fun t => (1 : Int) :: t) := by
        refine List.filter_eq_self.mpr (fun y hy => ?_)
        obtain ⟨t, _, rfl⟩ := List.mem_map.mp hy
        simp only [decide_eq_true_eq, List.mem_map]
        rintro ⟨s, _, hs⟩
        exact absurd hs (by simp)
      rw [hfil]
      rfl

end Booles

namespace Booles

lemma pyIndex_lt {l : List Symbol} {x : Symbol} {k : Nat} (h : pyIndex l x = some k) :
    k < l.length := by
  induction l generalizing k with
  | nil => simp [pyIndex] at h
  | cons a as ih =>
    by_cases ha : a = x
    · simp only [pyIndex, if_pos ha, Option.some.injEq] at h
      subst h
      simp
    · simp only [pyIndex, if_neg ha] at h
      obtain ⟨k', hk', rfl⟩ := Option.map_eq_some'.mp h
      have := ih hk'
      simp only [List.length_cons]
      omega

lemma eliminate_ok {eq : Equation} {symbol : Symbol} {k : Nat}
    (hwf : wellFormedB eq = true) (hk : pyIndex eq.symbols symbol = some k) :
    eliminate_symbol eq symbol = .ok ⟨eq.symbols.eraseIdx k,
      (allAssignments (eq.symbols.length - 1)).map (fun t =>
        (t, if tableFun eq (insertAt k 0 t) = 1 ∧ tableFun eq (insertAt k 1 t) = 1
            then (1 : Int) else 0))⟩ := by
  obtain ⟨hT, hV⟩ := wellFormed_table hwf
  have hkl : k < eq.symbols.length := pyIndex_lt hk
  obtain ⟨m, hm⟩ : ∃ m, eq.symbols.length = m + 1 := ⟨eq.symbols.length - 1, by omega⟩
  have hkm : k ≤ m := by omega
  have hidx : pyIndexE eq.symbols symbol = .ok k := by unfold pyIndexE; rw [hk]
  have hstep : ∀ p ∈ eq.moduli,
      (fun (p : List Int × Int) =>
        match pyIndexE eq.symbols symbol with
        | .ok k2 =>
          match pyPop p.1 k2 with
          | .ok values2 => (Except.ok (values2, p.2) : Except PyError (List Int × Int))
          | .error e => .error e
        | .error e => .error e) p =
      Except.ok ((fun (p : List Int × Int) => (p.1.eraseIdx k, p.2)) p) := by
    intro p hp
    rw [hT] at hp
    obtain ⟨v, hv, rfl⟩ := List.mem_map.mp hp
    have hvlen : v.length = eq.symbols.length := (mem_allAssignments.mp hv).1
    dsimp only
    rw [hidx]
    show (match pyPop v k with
      | .ok values2 => (Except.ok (values2, tableFun eq v) : Except PyError (List Int × Int))
      | .error e => .error e) = _
    unfold pyPop
    rw [if_pos (show k < v.length by omega)]
  unfold eliminate_symbol
  rw [mapE_eq_map hstep, hidx]
  dsimp only
  have hpop : pyPop eq.symbols k = .ok (eq.symbols.eraseIdx k) := by
    unfold pyPop
    rw [if_pos hkl]
  rw [hpop]
  dsimp only
  refine congrArg Except.ok ?_
  refine congrArg₂ Equation.mk rfl ?_
  have hpairs : eq.moduli.map (fun p : List Int × Int => (p.1.eraseIdx k, p.2)) =
      (allAssignments eq.symbols.length).map (fun v => (v.eraseIdx k, tableFun eq v)) := by
    rw [hT, List.map_map]
    rfl
  have hkeys : (eq.moduli.map (fun p : List Int × Int => (p.1.eraseIdx k, p.2))).map Prod.fst =
      (allAssignments eq.symbols.length).map (fun v => v.eraseIdx k) := by
    rw [hpairs, List.map_map]
    rfl
  rw [hkeys, show eq.symbols.length = m + 1 from hm,
    dedupFirst_eraseIdx_allAssignments k m hkm,
    show m = eq.symbols.length - 1 by omega]
  refine List.map_congr_left (fun t ht => ?_)
  have hcount : (eq.moduli.map (fun p : List Int × Int => (p.1.eraseIdx k, p.2))).countP
      (fun q => decide (q.1 = t ∧ q.2 = 1)) =
      (if tableFun eq (insertAt k 0 t) = 1 then 1 else 0) +
        (if tableFun eq (insertAt k 1 t) = 1 then 1 else 0) := by
    rw [hpairs, List.countP_map, show eq.symbols.length = m + 1 from hm]
    have hcomp : (allAssignments (m + 1)).countP
        ((fun q : List Int × Int => decide (q.1 = t ∧ q.2 = 1)) ∘
          (fun v => (v.eraseIdx k, tableFun eq v))) =
        (allAssignments (m + 1)).countP
          (fun v => decide (v.eraseIdx k = t ∧ tableFun eq v = 1)) :=
      List.countP_congr (fun v hv => Iff.rfl)
    rw [hcomp]
    exact countP_eraseIdx_allAssignments k m hkm (tableFun eq) t
      (by rwa [show m = eq.symbols.length - 1 by omega])
  rw [hcount]
  by_cases h0 : tableFun eq (insertAt k 0 t) = 1 <;>
    by_cases h1 : tableFun eq (insertAt k 1 t) = 1 <;> simp [h0, h1]

/-- C3: for a well-formed equation containing `symbol` at position `k`,
`eliminate` succeeds and returns an equation whose variable list is the
original with `symbol` removed (order preserved), whose table is complete over
the `2^(n-1)` remaining assignments, and in which a projected assignment is
forbidden exactly when both of its completions — `symbol = 0` and `symbol = 1`
inserted at position `k` — are forbidden in the original. -/
theorem eliminate_spec (eq : Equation) (symbol : Symbol) (k : Nat)
    (hwf : wellFormedB eq = true) (hk : pyIndex eq.symbols symbol = some k) :
    ∃ eq2, eliminate_symbol eq symbol = .ok eq2 ∧
      eq2.symbols = eq.symbols.eraseIdx k ∧
      eq2.moduli.map Prod.fst = allAssignments (eq.symbols.length - 1) ∧
      ∀ t ∈ allAssignments (eq.symbols.length - 1),
        (dictGet eq2.moduli t = some 1 ↔
          (dictGet eq.moduli (insertAt k 0 t) = some 1 ∧
            dictGet eq.moduli (insertAt k 1 t) = some 1)) := by
  refine ⟨_, eliminate_ok hwf hk, rfl, ?_, ?_⟩
  · simp [List.map_map, Function.comp_def]
  · intro t ht
    obtain ⟨hT, hV⟩ := wellFormed_table hwf
    have hkl := pyIndex_lt hk
    have hm : eq.symbols.length - 1 + 1 = eq.symbols.length := by omega
    have hins : ∀ b : Int, b = 0 ∨ b = 1 →
        insertAt k b t ∈ allAssignments eq.symbols.length := by
      intro b hb
      rw [← hm]
      exact insertAt_mem_allAssignments hb ht
    have hlook : ∀ b : Int, b = 0 ∨ b = 1 →
        dictGet eq.moduli (insertAt k b t) =
          some (tableFun eq (insertAt k b t)) := by
      intro b hb
      rw [hT]
      rw [show dictGet ((allAssignments eq.symbols.length).map
          (fun w => (w, tableFun eq w))) (insertAt k b t) =
        if insertAt k b t ∈ allAssignments eq.symbols.length then
          some (tableFun eq (insertAt k b t)) else none from dictGet_map_self _]
      rw [if_pos (hins b hb)]
    have hself : dictGet ((allAssignments (eq.symbols.length - 1)).map (fun t =>
        (t, if tableFun eq (insertAt k 0 t) = 1 ∧ tableFun eq (insertAt k 1 t) = 1
            then (1 : Int) else 0))) t =
        some (if tableFun eq (insertAt k 0 t) = 1 ∧ tableFun eq (insertAt k 1 t) = 1
            then (1 : Int) else 0) := by
      rw [show dictGet ((allAssignments (eq.symbols.length - 1)).map (fun t =>
          (t, if tableFun eq (insertAt k 0 t) = 1 ∧ tableFun eq (insertAt k 1 t) = 1
              then (1 : Int) else 0))) t =
        if t ∈ allAssignments (eq.symbols.length - 1) then
          some (if tableFun eq (insertAt k 0 t) = 1 ∧ tableFun eq (insertAt k 1 t) = 1
              then (1 : Int) else 0) else none from dictGet_map_self _]
      rw [if_pos ht]
    rw [hself, hlook 0 (Or.inl rfl), hlook 1 (Or.inr rfl)]
    by_cases h0 : tableFun eq (insertAt k 0 t) = 1 <;>
      by_cases h1 : tableFun eq (insertAt k 1 t) = 1 <;> simp [h0, h1]

/-- Witness for C3: eliminating `x` (position 0) from a concrete well-formed
two-variable table. -/
theorem eliminate_spec_witness :
    ∃ eq2, eliminate_symbol ⟨["x", "y"], [([0, 0], 0), ([0, 1], 1), ([1, 0], 1), ([1, 1], 1)]⟩
        "x" = .ok eq2 ∧
      eq2.symbols = (["x", "y"] : List Symbol).eraseIdx 0 ∧
      eq2.moduli.map Prod.fst =
        allAssignments ((["x", "y"] : List Symbol).length - 1) ∧
      ∀ t ∈ allAssignments ((["x", "y"] : List Symbol).length - 1),
        (dictGet eq2.moduli t = some 1 ↔
          (dictGet ([([0, 0], 0), ([0, 1], 1), ([1, 0], 1), ([1, 1], 1)] :
              List (List Int × Int)) (insertAt 0 0 t) = some 1 ∧
            dictGet ([([0, 0], 0), ([0, 1], 1), ([1, 0], 1), ([1, 1], 1)] :
              List (List Int × Int)) (insertAt 0 1 t) = some 1)) :=
  eliminate_spec ⟨["x", "y"], [([0, 0], 0), ([0, 1], 1), ([1, 0], 1), ([1, 1], 1)]⟩ "x" 0
    (by decide) (by decide)

end Booles

namespace Booles

/-- The claim-side term construction: one piece per variable/value pair in
order — the bare letter at value 1, `(1-letter)` at value 0 — joined with no
separator. -/
def termSpec (symbols : List Symbol) (values : List Int) : String :=
  String.join ((symbols.zip values).map
    (fun p => if p.2 = 1 then p.1 else "(1-" ++ p.1 ++ ")"))

lemma termOf_eq_termSpec (symbols : List Symbol) (values : List Int) :
    termOf symbols values = termSpec symbols values := by
  unfold termOf termSpec String.join
  rw [List.foldl_map]

/-- C8: for a well-formed equation, rendering emits one term per assignment
with forbidden value 1, in the fixed enumeration order, each term concatenating
per variable (in variable-list order) the bare letter at 1 and `(1-letter)` at
0 with no separator, joins the terms with `" + "`, and appends `" = 0"`; with
no forbidden assignment it renders exactly `"0 = 0"`. -/
theorem equation_render (eq : Equation) (hwf : wellFormedB eq = true) :
    (reprEquation eq =
      (if ((allAssignments eq.symbols.length).filter
            (fun v => dictGet eq.moduli v = some 1)).map (termSpec eq.symbols) = []
        then "0 = 0"
        else String.intercalate " + "
            (((allAssignments eq.symbols.length).filter
              (fun v => dictGet eq.moduli v = some 1)).map (termSpec eq.symbols)) ++
          " = 0")) ∧
      ((∀ p ∈ eq.moduli, p.2 ≠ 1) → reprEquation eq = "0 = 0") := by
  obtain ⟨hT, hV⟩ := wellFormed_table hwf
  have hlook : ∀ v ∈ allAssignments eq.symbols.length,
      dictGet eq.moduli v = some (tableFun eq v) := by
    intro v hv
    rw [hT]
    rw [show dictGet ((allAssignments eq.symbols.length).map
        (fun w => (w, tableFun eq w))) v =
      if v ∈ allAssignments eq.symbols.length then some (tableFun eq v) else none from
      dictGet_map_self _]
    rw [if_pos hv]
  have hfil : eq.moduli.filter (fun p => p.2 ≠ 0) =
      ((allAssignments eq.symbols.length).filter
        (fun v => dictGet eq.moduli v = some 1)).map (fun v => (v, tableFun eq v)) := by
    conv_lhs => rw [hT]
    rw [List.filter_map]
    refine congrArg _ (List.filter_congr (fun v hv => ?_))
    show (decide ¬(tableFun eq v = 0)) = decide (dictGet eq.moduli v = some 1)
    rw [hlook v hv]
    rcases hV v with h | h <;> simp [h]
  have hterms : (eq.moduli.filter (fun p => p.2 ≠ 0)).map (fun p => termOf eq.symbols p.1) =
      ((allAssignments eq.symbols.length).filter
        (fun v => dictGet eq.moduli v = some 1)).map (termSpec eq.symbols) := by
    rw [hfil, List.map_map]
    exact List.map_congr_left (fun v hv => termOf_eq_termSpec eq.symbols v)
  constructor
  · unfold reprEquation
    rw [hterms]
  · intro hno
    have hempty : eq.moduli.filter (fun p => p.2 ≠ 0) = [] := by
      refine List.filter_eq_nil_iff.mpr (fun p hp => ?_)
      have h2 := hno p hp
      have hmem := hp
      rw [hT] at hmem
      obtain ⟨v, hv, hveq⟩ := List.mem_map.mp hmem
      have hval : p.2 = tableFun eq v := by rw [← hveq]
      rcases hV v with h | h
      · simp [hval, h]
      · exact absurd (hval.trans h) h2
    unfold reprEquation
    rw [hempty]
    rfl

/-- Witness for C8 at the concrete "all Xs are Ys" table, which renders as
`"x(1-y) = 0"`. -/
theorem equation_render_witness :
    (reprEquation ⟨["x", "y"], [([0, 0], 0), ([0, 1], 0), ([1, 0], 1), ([1, 1], 0)]⟩ =
      (if ((allAssignments (Equation.mk ["x", "y"]
              [([0, 0], 0), ([0, 1], 0), ([1, 0], 1), ([1, 1], 0)]).symbols.length).filter
            (fun v => dictGet (Equation.mk ["x", "y"]
              [([0, 0], 0), ([0, 1], 0), ([1, 0], 1), ([1, 1], 0)]).moduli v = some 1)).map
              (termSpec ["x", "y"]) = []
        then "0 = 0"
        else String.intercalate " + "
            (((allAssignments (Equation.mk ["x", "y"]
              [([0, 0], 0), ([0, 1], 0), ([1, 0], 1), ([1, 1], 0)]).symbols.length).filter
              (fun v => dictGet (Equation.mk ["x", "y"]
                [([0, 0], 0), ([0, 1], 0), ([1, 0], 1), ([1, 1], 0)]).moduli v = some 1)).map
                (termSpec ["x", "y"])) ++
          " = 0")) ∧
      ((∀ p ∈ (Equation.mk ["x", "y"]
          [([0, 0], 0), ([0, 1], 0), ([1, 0], 1), ([1, 1], 0)]).moduli, p.2 ≠ 1) →
        reprEquation ⟨["x", "y"], [([0, 0], 0), ([0, 1], 0), ([1, 0], 1), ([1, 1], 0)]⟩ =
          "0 = 0") :=
  equation_render ⟨["x", "y"], [([0, 0], 0), ([0, 1], 0), ([1, 0], 1), ([1, 1], 0)]⟩
    (by decide)

end Booles

namespace Booles

/-- Attach an optional continuation as a right factor. -/
def cont (e : Function) : Option Function → Function
  | none => e
  | some k => .MultiplicationFunction e k

/-- The right-nested reassociation the parser produces: `reW e none` is
`parse`'s result on `e`'s rendering, built by flattening every product spine
and re-nesting it to the right (negation bodies reassociated recursively);
`reW e (some k)` continues the spine with `k` at the far right. -/
def reW : Function → Option Function → Function
  | .MultiplicationFunction l r, k => reW l (some (reW r k))
  | .NegationFunction b, k => cont (.NegationFunction (reW b none)) k
  | .SymbolFunction s, k => cont (.SymbolFunction s) k
  | .ConstantFunction v, k => cont (.ConstantFunction v) k

lemma reprL_reW (e : Function) : ∀ k : Option Function,
    reprL (reW e k) = reprL e ++ (match k with | none => [] | some kk => reprL kk) := by
  induction e with
  | SymbolFunction s =>
    intro k
    cases k with
    | none => simp [reW, cont]
    | some kk => simp [reW, cont, reprL]
  | ConstantFunction v =>
    intro k
    cases k with
    | none => simp [reW, cont]
    | some kk => simp [reW, cont, reprL]
  | NegationFunction b ih =>
    intro k
    cases k with
    | none => simp [reW, cont, reprL, ih none]
    | some kk => simp [reW, cont, reprL, ih none]
  | MultiplicationFunction l r ihl ihr =>
    intro k
    show reprL (reW l (some (reW r k))) = _
    rw [ihl (some (reW r k))]
    show reprL l ++ reprL (reW r k) = _
    rw [ihr k]
    cases k <;> simp [reprL]

/-- The parenthesis balance contribution of one character. -/
def charBal (c : Char) : Int := if c = '(' then 1 else if c = ')' then -1 else 0

/-- Running parenthesis balance of a string. -/
def balCount (s : List Char) : Int := (s.map charBal).sum

/-- Every prefix has nonnegative balance. -/
def PrefixBal (s : List Char) : Prop := ∀ n : Nat, 0 ≤ balCount (s.take n)

lemma balCount_nil : balCount [] = 0 := rfl

lemma balCount_cons (c : Char) (u : List Char) :
    balCount (c :: u) = charBal c + balCount u := by
  simp [balCount]

lemma balCount_append (u v : List Char) :
    balCount (u ++ v) = balCount u + balCount v := by
  simp [balCount]

lemma wf_symbol_char {c : Char} (h1 : 'a' ≤ c) (h2 : c ≤ 'z') : charBal c = 0 := by
  unfold charBal
  rw [if_neg, if_neg]
  · rintro rfl
    exact absurd h1 (by decide)
  · rintro rfl
    exact absurd h1 (by decide)

lemma reprL_ne_nil {e : Function} (h : wfB e = true) : reprL e ≠ [] := by
  induction e with
  | SymbolFunction s =>
    show s.data ≠ []
    unfold wfB at h
    cases hd : s.data with
    | nil => rw [hd] at h; simp at h
    | cons c cs => simp
  | ConstantFunction v =>
    have hv : v = 0 ∨ v = 1 := by simpa [wfB] using h
    rcases hv with rfl | rfl <;> decide
  | NegationFunction b ih => simp [reprL]
  | MultiplicationFunction l r ihl ihr =>
    have hl : wfB l = true := by simp [wfB] at h; exact h.1
    simp [reprL, ihl hl]

lemma reprL_bal {e : Function} (h : wfB e = true) : balCount (reprL e) = 0 := by
  induction e with
  | SymbolFunction s =>
    show balCount s.data = 0
    unfold wfB at h
    cases hd : s.data with
    | nil => simp [balCount]
    | cons c cs =>
      rw [hd] at h
      cases cs with
      | nil =>
        simp only [Bool.and_eq_true, decide_eq_true_eq] at h
        simp [balCount, wf_symbol_char h.1 h.2]
      | cons c2 cs2 => simp at h
  | ConstantFunction v =>
    have hv : v = 0 ∨ v = 1 := by simpa [wfB] using h
    rcases hv with rfl | rfl <;> decide
  | NegationFunction b ih =>
    have hb : wfB b = true := by simpa [wfB] using h
    show balCount ('(' :: '1' :: '-' :: (reprL b ++ [')'])) = 0
    rw [balCount_cons, balCount_cons, balCount_cons, balCount_append, ih hb]
    decide
  | MultiplicationFunction l r ihl ihr =>
    have hl : wfB l = true := by simp [wfB] at h; exact h.1
    have hr : wfB r = true := by simp [wfB] at h; exact h.2
    show balCount (reprL l ++ reprL r) = 0
    rw [balCount_append, ihl hl, ihr hr]
    decide

lemma prefixBal_single (c : Char) (hc : charBal c = 0) : PrefixBal [c] := by
  intro n
  cases n with
  | zero => simp [balCount]
  | succ n => simp [balCount, hc]

lemma reprL_prefixBal {e : Function} (h : wfB e = true) : PrefixBal (reprL e) := by
  induction e with
  | SymbolFunction s =>
    show PrefixBal s.data
    unfold wfB at h
    cases hd : s.data with
    | nil => intro n; simp [balCount]
    | cons c cs =>
      rw [hd] at h
      cases cs with
      | nil =>
        simp only [Bool.and_eq_true, decide_eq_true_eq] at h
        exact prefixBal_single c (wf_symbol_char h.1 h.2)
      | cons c2 cs2 => simp at h
  | ConstantFunction v =>
    have hv : v = 0 ∨ v = 1 := by simpa [wfB] using h
    rcases hv with rfl | rfl
    · exact prefixBal_single '0' (by decide)
    · exact prefixBal_single '1' (by decide)
  | NegationFunction b ih =>
    have hb : wfB b = true := by simpa [wfB] using h
    intro n
    rcases n with _ | _ | _ | _ | m
    · simp [balCount]
    · show (0 : Int) ≤ balCount ['(']
      decide
    · show (0 : Int) ≤ balCount ['(', '1']
      decide
    · show (0 : Int) ≤ balCount ['(', '1', '-']
      decide
    · show (0 : Int) ≤ balCount ('(' :: '1' :: '-' :: ((reprL b ++ [')']).take (m + 1)))
      rw [balCount_cons, balCount_cons, balCount_cons,
        List.take_append_eq_append_take, balCount_append]
      have h1 : 0 ≤ balCount ((reprL b).take (m + 1)) := ih hb (m + 1)
      have h2 : balCount (([')'] : List Char).take ((m + 1) - (reprL b).length)) = 0 ∨
          balCount (([')'] : List Char).take ((m + 1) - (reprL b).length)) = -1 := by
        cases hk : (m + 1) - (reprL b).length with
        | zero => left; rfl
        | succ k => right; rw [List.take_succ_cons, List.take_nil]; decide
      have hc1 : charBal '(' = 1 := by decide
      have hc2 : charBal '1' = 0 := by decide
      have hc3 : charBal '-' = 0 := by decide
      rw [hc1, hc2, hc3]
      rcases h2 with h2 | h2 <;> omega
  | MultiplicationFunction l r ihl ihr =>
    have hl : wfB l = true := by simp [wfB] at h; exact h.1
    have hr : wfB r = true := by simp [wfB] at h; exact h.2
    intro n
    show 0 ≤ balCount ((reprL l ++ reprL r).take n)
    rw [List.take_append_eq_append_take, balCount_append]
    have h1 : 0 ≤ balCount ((reprL l).take n) := ihl hl n
    have h2 : 0 ≤ balCount ((reprL r).take (n - (reprL l).length)) := ihr hr _
    omega

end Booles

namespace Booles

lemma mpGo_skip (u : List Char) : ∀ (s : List Char) (c : Int) (i : Nat),
    (∀ n : Nat, n ≤ u.length → 0 < c + balCount (u.take n)) →
    mpGo (u ++ s) c i = mpGo s (c + balCount u) (i + u.length) := by
  induction u with
  | nil =>
    intro s c i _
    show mpGo s c i = mpGo s (c + balCount []) (i + 0)
    rw [balCount_nil, Int.add_zero, Nat.add_zero]
  | cons a u ih =>
    intro s c i h
    show mpGo (a :: (u ++ s)) c i = mpGo s (c + balCount (a :: u)) (i + (a :: u).length)
    have hshift : ∀ n : Nat, n ≤ u.length →
        0 < (c + charBal a) + balCount (u.take n) := by
      intro n hn
      have := h (n + 1) (by simpa using hn)
      rw [show ((a :: u).take (n + 1)) = a :: u.take n from rfl, balCount_cons] at this
      omega
    have harith : c + balCount (a :: u) = (c + charBal a) + balCount u := by
      rw [balCount_cons]; omega
    have hlen : i + (a :: u).length = (i + 1) + u.length := by
      simp [List.length_cons]; omega
    rw [harith, hlen]
    by_cases ha : a = '('
    · show (if a = '(' then mpGo (u ++ s) (c + 1) (i + 1)
        else if a = ')' then
          if c - 1 = 0 then some i else mpGo (u ++ s) (c - 1) (i + 1)
        else mpGo (u ++ s) c (i + 1)) = _
      rw [if_pos ha, ih s (c + 1) (i + 1)
        (by intro n hn; have := hshift n hn; rw [ha] at this; simpa [charBal] using this)]
      subst ha
      rw [show charBal '(' = 1 from by decide]
    · by_cases hb : a = ')'
      · have hc1 : c - 1 ≠ 0 := by
          have := h 1 (by simp)
          rw [show ((a :: u).take 1) = [a] from rfl, balCount_cons, balCount_nil, hb] at this
          rw [show charBal ')' = -1 from by decide] at this
          omega
        show (if a = '(' then mpGo (u ++ s) (c + 1) (i + 1)
          else if a = ')' then
            if c - 1 = 0 then some i else mpGo (u ++ s) (c - 1) (i + 1)
          else mpGo (u ++ s) c (i + 1)) = _
        rw [if_neg ha, if_pos hb, if_neg hc1, ih s (c - 1) (i + 1)
          (by intro n hn; have := hshift n hn; rw [hb] at this
              rw [show charBal ')' = -1 from by decide] at this; omega)]
        subst hb
        rw [show charBal ')' = -1 from by decide]
        have harith2 : c + -1 + balCount u = c - 1 + balCount u := by ring
        rw [harith2]
      · show (if a = '(' then mpGo (u ++ s) (c + 1) (i + 1)
          else if a = ')' then
            if c - 1 = 0 then some i else mpGo (u ++ s) (c - 1) (i + 1)
          else mpGo (u ++ s) c (i + 1)) = _
        rw [if_neg ha, if_neg hb, ih s c (i + 1)
          (by intro n hn; have := hshift n hn
              rw [show charBal a = 0 from by simp [charBal, ha, hb]] at this; omega)]
        rw [show charBal a = 0 from by simp [charBal, ha, hb]]
        norm_num

lemma mp_correct (u rest : List Char) (hbal : balCount u = 0) (hpre : PrefixBal u) :
    matching_parenthesis ('(' :: (u ++ ')' :: rest)) = some (u.length + 1) := by
  have step1 : matching_parenthesis ('(' :: (u ++ ')' :: rest)) =
      mpGo (u ++ ')' :: rest) (0 + 1) (0 + 1) := by
    show (if ('(' : Char) = '(' then mpGo (u ++ ')' :: rest) (0 + 1) (0 + 1)
      else if ('(' : Char) = ')' then
        if (0 : Int) - 1 = 0 then some 0 else mpGo (u ++ ')' :: rest) ((0 : Int) - 1) (0 + 1)
      else mpGo (u ++ ')' :: rest) 0 (0 + 1)) = mpGo (u ++ ')' :: rest) (0 + 1) (0 + 1)
    rw [if_pos rfl]
  rw [step1, show ((0 : Int) + 1) = 1 from by decide, show 0 + 1 = 1 from rfl]
  rw [mpGo_skip u (')' :: rest) 1 1 (fun n _ => by have := hpre n; omega)]
  rw [hbal, show ((1 : Int) + 0) = 1 from by decide]
  have step2 : mpGo (')' :: rest) 1 (1 + u.length) = some (1 + u.length) := by
    show (if (')' : Char) = '(' then mpGo rest (1 + 1) (1 + u.length + 1)
      else if (')' : Char) = ')' then
        if (1 : Int) - 1 = 0 then some (1 + u.length)
        else mpGo rest ((1 : Int) - 1) (1 + u.length + 1)
      else mpGo rest 1 (1 + u.length + 1)) = some (1 + u.length)
    rw [if_neg (by decide), if_pos rfl, if_pos (by decide)]
  rw [step2, Nat.add_comm]

end Booles

namespace Booles

lemma pySlice_length_lt {s : List Char} (hs : s ≠ []) (a b : Nat) :
    (pySlice s a b).length < s.length ∨ pySlice s a b = s.drop a := by
  unfold pySlice
  by_cases hb : s.length ≤ b
  · right
    rw [List.take_of_length_le hb]
  · left
    rw [List.length_drop, List.length_take]
    have : s.length ≠ 0 := fun h => hs (List.length_eq_zero.mp h)
    omega

lemma parseBody_congr {p q : List Char → Except PyError Function} (s : List Char)
    (h : ∀ t : List Char, t.length < s.length → p t = q t) :
    parseBody p s = parseBody q s := by
  match s with
  | [] => rfl
  | [c] => rfl
  | c :: c2 :: cs =>
    have hlen3 : ((c :: c2 :: cs).drop 3).length < (c :: c2 :: cs).length := by
      simp only [List.length_drop, List.length_cons]
      omega
    have h1 : p [c] = q [c] := h [c] (by simp)
    have h2 : p (c2 :: cs) = q (c2 :: cs) := h (c2 :: cs) (by simp)
    have h3 : p ((c :: c2 :: cs).drop 3) = q ((c :: c2 :: cs).drop 3) := h _ hlen3
    simp only [parseBody]
    by_cases hc : c = '('
    · rw [if_pos hc, if_pos hc]
      cases hmp : matching_parenthesis (c :: c2 :: cs) with
      | some idx =>
        have hslice : (pySlice (c :: c2 :: cs) 3 idx).length < (c :: c2 :: cs).length := by
          unfold pySlice
          rw [List.length_drop, List.length_take]
          simp only [List.length_cons]
          omega
        have h4 : p (pySlice (c :: c2 :: cs) 3 idx) = q (pySlice (c :: c2 :: cs) 3 idx) :=
          h _ hslice
        have h5 : p ((c :: c2 :: cs).drop (idx + 1)) = q ((c :: c2 :: cs).drop (idx + 1)) :=
          h _ (by simp only [List.length_drop, List.length_cons]; omega)
        dsimp only
        rw [h4, h5]
      | none =>
        dsimp only
        rw [h3]
    · rw [if_neg hc, if_neg hc, h1, h2]

lemma parseFuel_congr : ∀ f₁ f₂ : Nat, ∀ s : List Char,
    s.length < f₁ → s.length < f₂ → parseFuel f₁ s = parseFuel f₂ s := by
  intro f₁
  induction f₁ with
  | zero => intro f₂ s h1 _; omega
  | succ f₁ ih =>
    intro f₂ s h1 h2
    cases f₂ with
    | zero => omega
    | succ f₂ =>
      show parseBody (parseFuel f₁) s = parseBody (parseFuel f₂) s
      exact parseBody_congr s (fun t ht => ih f₂ t (by omega) (by omega))

lemma parseL_eq (s : List Char) : parseL s = parseBody parseL s := by
  show parseBody (parseFuel s.length) s = parseBody parseL s
  exact parseBody_congr s
    (fun t ht => parseFuel_congr s.length (t.length + 1) t (by omega) (by omega))

end Booles

namespace Booles

/-- What `parse` returns on a rendering followed by `rest`: the reassociated
expression, extended with the parse of `rest` as rightmost factor when `rest`
is nonempty. -/
def parseCont (e : Function) (rest : List Char) : Except PyError Function :=
  match rest with
  | [] => .ok (reW e none)
  | _ :: _ =>
    match parseL rest with
    | .ok r => .ok (reW e (some r))
    | .error err => .error err

lemma parseCont_ne_nil {e : Function} {rest : List Char} (h : rest ≠ []) :
    parseCont e rest =
      match parseL rest with
      | .ok r => .ok (reW e (some r))
      | .error err => .error err := by
  cases rest with
  | nil => exact absurd rfl h
  | cons a as => rfl

lemma parse_char_cons (c : Char) (a : Function) (hc : c ≠ '(')
    (hp : parseChar c [c] = .ok a)
    (ha : ∀ k, reW a k = cont a k) (rest : List Char) :
    parseL (c :: rest) = parseCont a rest := by
  cases rest with
  | nil =>
    show parseChar c [c] = .ok (reW a none)
    rw [hp, ha none]
    rfl
  | cons c2 cs =>
    rw [parseL_eq]
    show parseBody parseL (c :: c2 :: cs) = _
    simp only [parseBody]
    rw [if_neg hc]
    rw [show parseL [c] = parseChar c [c] from rfl, hp]
    dsimp only
    rw [parseCont_ne_nil (by simp)]
    cases hrest : parseL (c2 :: cs) with
    | ok r =>
      dsimp only
      rw [ha (some r)]
      rfl
    | error err => rfl

lemma parse_repr : ∀ e : Function, wfB e = true → ∀ rest : List Char,
    parseL (reprL e ++ rest) = parseCont e rest := by
  intro e
  induction e with
  | SymbolFunction s =>
    intro h rest
    unfold wfB at h
    cases hd : s.data with
    | nil => rw [hd] at h; simp at h
    | cons c cs =>
      rw [hd] at h
      cases cs with
      | cons c2 cs2 => simp at h
      | nil =>
        simp only [Bool.and_eq_true, decide_eq_true_eq] at h
        have hs : s = String.mk [c] := congrArg String.mk hd
        have hrepr : reprL (.SymbolFunction s) = [c] := hd
        rw [hrepr]
        have hcne : c ≠ '(' := by
          rintro rfl
          exact absurd h.1 (by decide)
        have hpc : parseChar c [c] = .ok (.SymbolFunction s) := by
          unfold parseChar
          rw [if_pos ⟨h.1, h.2⟩, hs]
        exact parse_char_cons c (.SymbolFunction s) hcne hpc (fun k => rfl) rest
  | ConstantFunction v =>
    intro h rest
    have hv : v = 0 ∨ v = 1 := by simpa [wfB] using h
    rcases hv with rfl | rfl
    · rw [show reprL (.ConstantFunction (0 : Int)) = ['0'] from by decide]
      exact parse_char_cons '0' (.ConstantFunction 0) (by decide) (by decide)
        (fun k => rfl) rest
    · rw [show reprL (.ConstantFunction (1 : Int)) = ['1'] from by decide]
      exact parse_char_cons '1' (.ConstantFunction 1) (by decide) (by decide)
        (fun k => rfl) rest
  | NegationFunction b ih =>
    intro h rest
    have hb : wfB b = true := by simpa [wfB] using h
    have hbal : balCount ('1' :: '-' :: reprL b) = 0 := by
      rw [balCount_cons, balCount_cons, reprL_bal hb]
      decide
    have hpre : PrefixBal ('1' :: '-' :: reprL b) := by
      intro n
      rcases n with _ | _ | m
      · exact le_refl 0
      · show (0 : Int) ≤ balCount ['1']
        decide
      · show (0 : Int) ≤ balCount ('1' :: '-' :: (reprL b).take m)
        rw [balCount_cons, balCount_cons]
        have h1 := reprL_prefixBal hb m
        have hc2 : charBal '1' = 0 := by decide
        have hc3 : charBal '-' = 0 := by decide
        rw [hc2, hc3]
        omega
    have hassoc : reprL (.NegationFunction b) ++ rest =
        '(' :: '1' :: (('-' :: reprL b) ++ ')' :: rest) := by
      show ('(' :: '1' :: '-' :: (reprL b ++ [')'])) ++ rest = _
      simp [List.append_assoc]
    rw [hassoc, parseL_eq]
    show parseBody parseL ('(' :: '1' :: (('-' :: reprL b) ++ ')' :: rest)) = _
    simp only [parseBody]
    rw [if_pos trivial]
    have hmp : matching_parenthesis ('(' :: '1' :: (('-' :: reprL b) ++ ')' :: rest)) =
        some (('1' :: '-' :: reprL b).length + 1) :=
      mp_correct ('1' :: '-' :: reprL b) rest hbal hpre
    rw [hmp]
    dsimp only
    rw [if_pos (show ('(' :: '1' :: (('-' :: reprL b) ++ ')' :: rest)).take 3 =
      ['(', '1', '-'] from rfl)]
    have hslice : pySlice ('(' :: '1' :: (('-' :: reprL b) ++ ')' :: rest)) 3
        (('1' :: '-' :: reprL b).length + 1) = reprL b := by
      show (('(' :: '1' :: '-' :: (reprL b ++ ')' :: rest)).take
        ((reprL b).length + 1 + 1 + 1)).drop 3 = reprL b
      rw [show ('(' :: '1' :: '-' :: (reprL b ++ ')' :: rest)).take
          ((reprL b).length + 1 + 1 + 1) =
        '(' :: '1' :: '-' :: ((reprL b ++ ')' :: rest).take (reprL b).length) from rfl]
      rw [List.take_left]
      rfl
    rw [hslice]
    have hbparse : parseL (reprL b) = .ok (reW b none) := by
      have hib := ih hb []
      rwa [List.append_nil] at hib
    rw [hbparse]
    dsimp only
    have hlen : ('(' :: '1' :: (('-' :: reprL b) ++ ')' :: rest)).length =
        (reprL b).length + 4 + rest.length := by
      simp [List.length_cons, List.length_append]
      omega
    cases rest with
    | nil =>
      rw [if_pos (by rw [hlen]; simp only [List.length_cons, List.length_nil]; omega)]
      rfl
    | cons r1 rs =>
      rw [if_neg (by rw [hlen]; simp only [List.length_cons, List.length_nil]; omega)]
      have hdrop : ('(' :: '1' :: (('-' :: reprL b) ++ ')' :: r1 :: rs)).drop
          (('1' :: '-' :: reprL b).length + 1 + 1) = r1 :: rs := by
        show (reprL b ++ ')' :: r1 :: rs).drop ((reprL b).length + 1) = r1 :: rs
        rw [← List.drop_drop, List.drop_left]
        rfl
      rw [hdrop, parseCont_ne_nil (by simp)]
      cases hrest : parseL (r1 :: rs) with
      | ok r => rfl
      | error err => rfl
  | MultiplicationFunction l r ihl ihr =>
    intro h rest
    have hl : wfB l = true := by simp [wfB] at h; exact h.1
    have hr : wfB r = true := by simp [wfB] at h; exact h.2
    have hassoc : reprL (.MultiplicationFunction l r) ++ rest =
        reprL l ++ (reprL r ++ rest) := by
      show (reprL l ++ reprL r) ++ rest = _
      rw [List.append_assoc]
    rw [hassoc, ihl hl (reprL r ++ rest)]
    have hne : reprL r ++ rest ≠ [] := by
      intro hh
      exact reprL_ne_nil hr (List.append_eq_nil.mp hh).1
    rw [parseCont_ne_nil hne, ihr hr rest]
    cases rest with
    | nil => rfl
    | cons r1 rs =>
      rw [parseCont_ne_nil (show (r1 :: rs : List Char) ≠ [] by simp),
        parseCont_ne_nil (show (r1 :: rs : List Char) ≠ [] by simp)]
      cases hrest : parseL (r1 :: rs) with
      | ok rr => rfl
      | error err => rfl

end Booles

namespace Booles

/-- C5: round-trip: every rendered well-formed expression parses back to an
expression with the identical rendering (the tree may re-associate products,
but the text is unchanged). -/
theorem roundtrip (e : Function) (he : wfB e = true) :
    ∃ e2, parse (reprFunction e) = .ok e2 ∧ reprFunction e2 = reprFunction e := by
  refine ⟨reW e none, ?_, ?_⟩
  · have hpr := parse_repr e he []
    rw [List.append_nil] at hpr
    exact hpr
  · show String.mk (reprL (reW e none)) = String.mk (reprL e)
    rw [reprL_reW e none, List.append_nil]

/-- Witness for C5 at `(1-x)y`. -/
theorem roundtrip_witness :
    ∃ e2, parse (reprFunction (.MultiplicationFunction
          (.NegationFunction (.SymbolFunction "x")) (.SymbolFunction "y"))) = .ok e2 ∧
      reprFunction e2 = reprFunction (.MultiplicationFunction
        (.NegationFunction (.SymbolFunction "x")) (.SymbolFunction "y")) :=
  roundtrip _ (by decide)

/-- A term of the grammar: an atom or a negation, never a bare product. -/
def isTermB : Function → Bool
  | .MultiplicationFunction _ _ => false
  | _ => true

/-- Reassociation of one term: atoms unchanged, negation bodies reassociated. -/
def reTerm (t : Function) : Function :=
  match t with
  | .NegationFunction b => .NegationFunction (reW b none)
  | t => t

/-- The right-nested product of a nonempty list of factors. -/
def mkRightTree (t : Function) : List Function → Function
  | [] => t
  | u :: us => .MultiplicationFunction t (mkRightTree u us)

/-- C7 (amended): juxtaposition parses right-associatively: the concatenation
of the renderings of well-formed top-level terms `t, ts...` parses to the
right-nested product of those terms (with negation bodies reassociated), not
the left-nested one. -/
theorem parse_terms_right_nested (t : Function) (ts : List Function)
    (hall : ∀ u ∈ t :: ts, wfB u = true ∧ isTermB u = true) :
    parse (String.mk (((t :: ts).map reprL).flatten)) =
      .ok (mkRightTree (reTerm t) (ts.map reTerm)) := by
  induction ts generalizing t with
  | nil =>
    obtain ⟨hwt, hterm⟩ := hall t (List.mem_cons_self _ _)
    show parseL (reprL t ++ []) = .ok (mkRightTree (reTerm t) [])
    rw [parse_repr t hwt []]
    show Except.ok (reW t none) = Except.ok (reTerm t)
    cases t with
    | MultiplicationFunction l r => simp [isTermB] at hterm
    | NegationFunction b => rfl
    | SymbolFunction s => rfl
    | ConstantFunction v => rfl
  | cons u us ih =>
    obtain ⟨hwt, hterm⟩ := hall t (List.mem_cons_self _ _)
    show parseL (reprL t ++ ((u :: us).map reprL).flatten) = _
    rw [parse_repr t hwt _]
    have hne : ((u :: us).map reprL).flatten ≠ [] := by
      show reprL u ++ (us.map reprL).flatten ≠ []
      intro hh
      exact reprL_ne_nil (hall u (by simp)).1 (List.append_eq_nil.mp hh).1
    rw [parseCont_ne_nil hne]
    have hrec := ih u (fun v hv => hall v (by
      rcases List.mem_cons.mp hv with rfl | hv'
      · simp
      · simp [hv']))
    rw [show parseL (((u :: us).map reprL).flatten) =
      .ok (mkRightTree (reTerm u) (us.map reTerm)) from hrec]
    dsimp only
    show Except.ok (reW t (some (mkRightTree (reTerm u) (us.map reTerm)))) =
      .ok (mkRightTree (reTerm t) ((u :: us).map reTerm))
    cases t with
    | MultiplicationFunction l r => simp [isTermB] at hterm
    | NegationFunction b => rfl
    | SymbolFunction s => rfl
    | ConstantFunction v => rfl

/-- Witness for C7's amended claim at the three-term input `"xyz"`. -/
theorem parse_terms_right_nested_witness :
    parse (String.mk ((([Function.SymbolFunction "x", Function.SymbolFunction "y",
          Function.SymbolFunction "z"]).map reprL).flatten)) =
      .ok (mkRightTree (reTerm (.SymbolFunction "x"))
        (([Function.SymbolFunction "y", Function.SymbolFunction "z"]).map reTerm)) :=
  parse_terms_right_nested (.SymbolFunction "x")
    [.SymbolFunction "y", .SymbolFunction "z"] (by decide)

end Booles

namespace Booles

lemma parse_wfB : ∀ n : Nat, ∀ s : List Char, s.length ≤ n → ∀ e : Function,
    parseL s = .ok e → wfB e = true := by
  intro n
  induction n with
  | zero =>
    intro s hs e hp
    have hnil : s = [] := List.length_eq_zero.mp (by omega)
    subst hnil
    rw [show parseL [] = .error .indexError from rfl] at hp
    exact absurd hp (by simp)
  | succ n ihn =>
    intro s hs e hp
    rw [parseL_eq] at hp
    cases s with
    | nil =>
      rw [show parseBody parseL [] = .error .indexError from rfl] at hp
      exact absurd hp (by simp)
    | cons c cs =>
      cases cs with
      | nil =>
        replace hp : parseChar c [c] = .ok e := hp
        unfold parseChar at hp
        by_cases h1 : 'a' ≤ c ∧ c ≤ 'z'
        · rw [if_pos h1] at hp
          simp only [Except.ok.injEq] at hp
          subst hp
          show (match (String.mk [c]).data with
            | [c] => decide ('a' ≤ c) && decide (c ≤ 'z')
            | _ => false) = true
          simp [h1.1, h1.2]
        · rw [if_neg h1] at hp
          by_cases h2 : c = '0'
          · rw [if_pos h2] at hp
            simp only [Except.ok.injEq] at hp
            subst hp
            decide
          · rw [if_neg h2] at hp
            by_cases h3 : c = '1'
            · rw [if_pos h3] at hp
              simp only [Except.ok.injEq] at hp
              subst hp
              decide
            · rw [if_neg h3] at hp
              simp at hp
      | cons c2 cs2 =>
        have hlen : (c :: c2 :: cs2).length ≤ n + 1 := hs
        simp only [parseBody] at hp
        by_cases hc : c = '('
        · rw [if_pos hc] at hp
          cases hmp : matching_parenthesis (c :: c2 :: cs2) with
          | some idx =>
            rw [hmp] at hp
            dsimp only at hp
            by_cases ht : (c :: c2 :: cs2).take 3 = ['(', '1', '-']
            · rw [if_pos ht] at hp
              cases hin : parseL (pySlice (c :: c2 :: cs2) 3 idx) with
              | ok inside =>
                rw [hin] at hp
                dsimp only at hp
                have hwin : wfB inside = true := by
                  refine ihn (pySlice (c :: c2 :: cs2) 3 idx) ?_ inside hin
                  unfold pySlice
                  rw [List.length_drop, List.length_take]
                  simp only [List.length_cons] at hlen ⊢
                  omega
                by_cases hidx : idx = (c :: c2 :: cs2).length - 1
                · rw [if_pos hidx] at hp
                  simp only [Except.ok.injEq] at hp
                  subst hp
                  exact hwin
                · rw [if_neg hidx] at hp
                  cases hr : parseL ((c :: c2 :: cs2).drop (idx + 1)) with
                  | ok right =>
                    rw [hr] at hp
                    simp only [Except.ok.injEq] at hp
                    subst hp
                    have hwr : wfB right = true := by
                      refine ihn ((c :: c2 :: cs2).drop (idx + 1)) ?_ right hr
                      rw [List.length_drop]
                      simp only [List.length_cons] at hlen ⊢
                      omega
                    simp [wfB, hwin, hwr]
                  | error err =>
                    rw [hr] at hp
                    simp at hp
              | error err =>
                rw [hin] at hp
                simp at hp
            · rw [if_neg ht] at hp
              simp at hp
          | none =>
            rw [hmp] at hp
            dsimp only at hp
            by_cases ht : (c :: c2 :: cs2).take 3 = ['(', '1', '-']
            · rw [if_pos ht] at hp
              cases hin : parseL ((c :: c2 :: cs2).drop 3) with
              | ok inside => rw [hin] at hp; simp at hp
              | error err => rw [hin] at hp; simp at hp
            · rw [if_neg ht] at hp
              simp at hp
        · rw [if_neg hc] at hp
          cases hfc : parseL [c] with
          | ok first =>
            rw [hfc] at hp
            dsimp only at hp
            cases hrc : parseL (c2 :: cs2) with
            | ok right =>
              rw [hrc] at hp
              simp only [Except.ok.injEq] at hp
              subst hp
              have hwf : wfB first = true := by
                refine ihn [c] ?_ first hfc
                simp only [List.length_cons, List.length_nil] at hlen ⊢
                omega
              have hwr : wfB right = true := by
                refine ihn (c2 :: cs2) ?_ right hrc
                simp only [List.length_cons] at hlen ⊢
                omega
              simp [wfB, hwf, hwr]
            | error err =>
              rw [hrc] at hp
              simp at hp
          | error err =>
            rw [hfc] at hp
            simp at hp

/-- C9: every expression produced by `parse` has its constants restricted to
0 and 1, and evaluating it under any assignment binding each of its symbols to
a value in {0, 1} yields 0 or 1 — so every evaluation the normalizer performs
on parsed inputs stays boolean. -/
theorem parse_output_bool (s : String) (e : Function) (hp : parse s = .ok e)
    (vals : SymbolValues)
    (hv : ∀ sym ∈ fsymbols e, dictGet vals sym = some 0 ∨ dictGet vals sym = some 1) :
    call e vals = .ok 0 ∨ call e vals = .ok 1 :=
  call_bool (parse_wfB s.data.length s.data (le_refl _) e hp) hv

/-- Witness for C9: `parse "x(1-y)"` evaluated under `{"x": 1, "y": 0}`. -/
theorem parse_output_bool_witness :
    call (.MultiplicationFunction (.SymbolFunction "x")
        (.NegationFunction (.SymbolFunction "y"))) [("x", 1), ("y", 0)] = .ok 0 ∨
      call (.MultiplicationFunction (.SymbolFunction "x")
        (.NegationFunction (.SymbolFunction "y"))) [("x", 1), ("y", 0)] = .ok 1 :=
  parse_output_bool "x(1-y)"
    (.MultiplicationFunction (.SymbolFunction "x")
      (.NegationFunction (.SymbolFunction "y")))
    (by decide) [("x", 1), ("y", 0)] (by decide)

end Booles
